import Mathlib

/-!
Shallow embedding of the droll dice-rolling utility (src/main.rs).

Strings are modelled as lists of Unicode code points (`Nat`); `i32`
arithmetic is modelled as mathematical integers reduced by `wrap32`
(two's-complement wrapping, the release-build semantics of Rust integer
overflow).  Rust's `u8`/`i32` `FromStr` implementations, `str::trim`,
`str::to_lowercase` (on its ASCII-relevant fragment), `str::split` and the
`BTreeMap` frequency accumulation are each given executable models below.
-/

abbrev Str := List Nat

/-- The Unicode White_Space code points, as recognised by Rust's
`char::is_whitespace` (used by `str::trim`). -/
def wsCodes : List Nat :=
  [9, 10, 11, 12, 13, 32, 133, 160, 5760, 8192, 8193, 8194, 8195, 8196,
   8197, 8198, 8199, 8200, 8201, 8202, 8232, 8233, 8239, 8287, 12288]

def isWs (n : Nat) : Bool := decide (n ∈ wsCodes)

/-- Model of `str::trim`: drop whitespace from both ends. -/
def trimStr (s : Str) : Str :=
  ((s.dropWhile isWs).reverse.dropWhile isWs).reverse

/-- Model of `char` lowercasing on the ASCII fragment: `A`-`Z` map to
`a`-`z`, everything else is unchanged. -/
def lowerChar (n : Nat) : Nat := if 65 ≤ n ∧ n ≤ 90 then n + 32 else n

def lowerStr (s : Str) : Str := s.map lowerChar

/-- `spec.trim().to_lowercase()` from `Dice::parse`. -/
def normStr (s : Str) : Str := lowerStr (trimStr s)

/-- Code points of a Lean string literal, for stating concrete cases. -/
def strCodes (s : String) : Str := s.toList.map Char.toNat

/-- Model of Rust `str::split(sep)`: `n` separators yield `n + 1`
segments, empty segments included. -/
def splitCh (sep : Nat) : Str → List Str
  | [] => [[]]
  | c :: cs =>
    if c = sep then [] :: splitCh sep cs
    else
      match splitCh sep cs with
      | [] => [[c]]
      | r :: rs => (c :: r) :: rs

def isDigitC (n : Nat) : Bool := decide (48 ≤ n ∧ n ≤ 57)

def digitsToNat (s : Str) : Nat := s.foldl (fun a c => a * 10 + (c - 48)) 0

/-- Rust unsigned `FromStr` accepts one optional leading `+`. -/
def stripPlus (s : Str) : Str := if s.head? = some 43 then s.tail else s

/-- Digit-string value of an unsigned decimal integer: an optional leading
`+`, then one or more ASCII digits (Rust `u64`-style parse, range checks
applied separately). -/
def parseUnsigned (s : Str) : Option Nat :=
  let t := stripPlus s
  if t ≠ [] ∧ t.all isDigitC then some (digitsToNat t) else none

/-- Model of `str::parse::<u8>()`. -/
def parseU8 (s : Str) : Option Nat :=
  match parseUnsigned s with
  | some n => if n ≤ 255 then some n else none
  | none => none

def i32Min : Int := -(2 ^ 31)

def i32Max : Int := 2 ^ 31 - 1

/-- Model of `str::parse::<i32>()`: optional sign, digits, i32 range. -/
def parseI32 (s : Str) : Option Int :=
  if s.head? = some 45 then
    match (if s.tail ≠ [] ∧ s.tail.all isDigitC
           then some (digitsToNat s.tail) else none) with
    | some n => if (n : Int) ≤ 2 ^ 31 then some (-(n : Int)) else none
    | none => none
  else
    match parseUnsigned s with
    | some n => if (n : Int) ≤ i32Max then some ((n : Int)) else none
    | none => none

/-- Two's-complement wrap into the `i32` range (release-mode overflow). -/
def wrap32 (z : Int) : Int := (z + 2 ^ 31) % 2 ^ 32 - 2 ^ 31

/-- The `Dice` struct: `sides: u8`, `count: u8`, `modifier: i32`. -/
structure Dice where
  sides : Nat
  count : Nat
  modifier : Int
deriving DecidableEq, Repr

/-- The error taxonomy of `Dice::parse`; each constructor models one of
the `format!` error strings, carrying the (normalised) spec string and the
offending substring. -/
inductive ParseErr where
  | malformedSpec (spec : Str)
  | invalidCount (spec part : Str)
  | zeroCount (spec : Str)
  | invalidSides (spec part : Str)
  | invalidModifier (spec part : Str)
  | zeroSides (spec : Str)
deriving DecidableEq, Repr

/-- The sides-and-modifier stage of `Dice::parse` applied to `parts[1]`
(code point 43 is `+`, 45 is `-`, 48 is `0`). -/
def parseSidesMod (spec p1 : Str) : Except ParseErr (Nat × Int) :=
  if 43 ∈ p1 then
    let parts := splitCh 43 p1
    let sidesStr := parts.headI
    let modStr := (parts.get? 1).getD [48]
    match parseU8 sidesStr with
    | none => Except.error (ParseErr.invalidSides spec sidesStr)
    | some sides =>
      match parseI32 modStr with
      | none => Except.error (ParseErr.invalidModifier spec modStr)
      | some m => Except.ok (sides, m)
  else if 45 ∈ p1 then
    let parts := splitCh 45 p1
    let sidesStr := parts.headI
    let modStr := (parts.get? 1).getD [48]
    match parseU8 sidesStr with
    | none => Except.error (ParseErr.invalidSides spec sidesStr)
    | some sides =>
      match parseI32 modStr with
      | none => Except.error (ParseErr.invalidModifier spec modStr)
      | some m => Except.ok (sides, wrap32 (-m))
  else
    match parseU8 p1 with
    | none => Except.error (ParseErr.invalidSides spec p1)
    | some sides => Except.ok (sides, 0)

/-- The body of `Dice::parse` once the `d`-split succeeded with exactly
two parts: count, then sides and modifier, then the zero-sides check. -/
def parseAfterSplit (spec p0 p1 : Str) : Except ParseErr Dice :=
  match parseU8 p0 with
  | none => Except.error (ParseErr.invalidCount spec p0)
  | some count =>
    if count = 0 then Except.error (ParseErr.zeroCount spec)
    else
      match parseSidesMod spec p1 with
      | Except.error e => Except.error e
      | Except.ok (sides, modifier) =>
        if sides = 0 then Except.error (ParseErr.zeroSides spec)
        else Except.ok ⟨sides, count, modifier⟩

/-- `Dice::parse` after normalisation (code point 100 is `d`). -/
def parseCore (spec : Str) : Except ParseErr Dice :=
  match splitCh 100 spec with
  | [p0, p1] => parseAfterSplit spec p0 p1
  | _ => Except.error (ParseErr.malformedSpec spec)

/-- `Dice::parse`. -/
def Dice.parse (s : Str) : Except ParseErr Dice := parseCore (normStr s)

/-- `Dice::roll`, with the stream of uniform draws made explicit: `total`
starts at 0, each draw is added with `i32` semantics, then the modifier is
added. -/
def Dice.roll (d : Dice) (draws : List Nat) : Int :=
  wrap32 ((draws.foldl (fun (t : Int) (r : Nat) => wrap32 (t + (r : Int))) 0) + d.modifier)

/-- The draws the random source can actually produce for a spec:
`count` values, each uniform in `[1, sides]`. -/
def ValidDraws (d : Dice) (draws : List Nat) : Prop :=
  draws.length = d.count ∧ ∀ r ∈ draws, 1 ≤ r ∧ r ≤ d.sides

instance (d : Dice) (draws : List Nat) : Decidable (ValidDraws d draws) := by
  unfold ValidDraws
  infer_instance

/-- `BTreeMap<i32, usize>` entry(k).or_insert(0) += 1, on a
strictly-key-sorted association list. -/
def btInsert (k : Int) : List (Int × Nat) → List (Int × Nat)
  | [] => [(k, 1)]
  | (j, v) :: rest =>
    if k < j then (k, 1) :: (j, v) :: rest
    else if k = j then (j, v + 1) :: rest
    else (j, v) :: btInsert k rest

/-- The nested `generate_combinations` of `Dice::roll_distribution`:
arguments are `count`, `sides`, `current_sum`, and the accumulated
frequency map. -/
def generate_combinations : Nat → Nat → Int → List (Int × Nat) → List (Int × Nat)
  | 0, _, s, m => btInsert s m
  | c + 1, sides, s, m =>
    (List.range sides).foldl
      (fun (acc : List (Int × Nat)) (i : Nat) =>
        generate_combinations c sides (wrap32 (s + (i : Int) + 1)) acc) m

/-- `Dice::roll_distribution`: the frequency map keyed by total, the sum
of its values as `total_outcomes`, and the unzipped totals alongside the
percentages `freq / total_outcomes * 100`.  The `f64` percentages are
modelled as exact rationals. -/
def Dice.roll_distribution (d : Dice) : List Int × List ℚ :=
  let all_rolls := generate_combinations d.count d.sides d.modifier []
  let total_outcomes : Nat := (all_rolls.map Prod.snd).sum
  (all_rolls.map Prod.fst,
   all_rolls.map (fun p => ((p.2 : ℚ) / (total_outcomes : ℚ)) * 100))

/-- Frequency-map lookup (0 when the key is absent). -/
def lookupF : List (Int × Nat) → Int → Nat
  | [], _ => 0
  | (j, v) :: rest, k => if k = j then v else lookupF rest k

def keysOf (m : List (Int × Nat)) : List Int := m.map Prod.fst

def freqSum (m : List (Int × Nat)) : Nat := (m.map Prod.snd).sum

/-- The invariant `btInsert` maintains: keys strictly ascending and all
stored frequencies positive. -/
def GoodMap (m : List (Int × Nat)) : Prop :=
  (keysOf m).Pairwise (· < ·) ∧ ∀ p ∈ m, 1 ≤ p.2

/-- Number of ways `generate_combinations count sides s` reaches a final
(wrapped) sum `q`; the recursion mirrors the code's loop structure. -/
def nWays : Nat → Nat → Int → Int → Nat
  | 0, _, s, q => if s = q then 1 else 0
  | c + 1, sides, s, q =>
    ((List.range sides).map (fun (i : Nat) => nWays c sides (wrap32 (s + (i : Int) + 1)) q)).sum

/-- Spec-side definition, following the words of the specification: all
`sides^count` outcome combinations, `count` positions each ranging
`1..=sides`. -/
def allCombos : Nat → Nat → List (List Nat)
  | 0, _ => [[]]
  | c + 1, sides =>
    (List.range sides).flatMap (fun i => (allCombos c sides).map (fun t => (i + 1) :: t))

/-- Spec-side definition: the frequency of a given raw (unmodified) sum
among all outcome combinations. -/
def specFreq (count sides : Nat) (r : Int) : Nat :=
  (allCombos count sides).countP (fun t => decide ((t.sum : Int) = r))

/-- Spec-side definition: the achievable totals, in ascending order, from
`count * 1 + modifier` up to `count * sides + modifier`. -/
def specTotals (d : Dice) : List Int :=
  (List.range (d.count * d.sides - d.count + 1)).map
    (fun (i : Nat) => d.modifier + (d.count : Int) + (i : Int))

/-- Spec-side definition, following the specification's words for
`distribution`: each total paired with percentage
`(frequency / sides^count) * 100`. -/
def specDistribution (d : Dice) : List Int × List ℚ :=
  (specTotals d,
   (specTotals d).map
     (fun q => ((specFreq d.count d.sides (q - d.modifier) : ℚ) / ((d.sides : ℚ) ^ d.count)) * 100))

/-- Character-set shorthand: the characters that appear in well-formed
spec strings and are fixed by normalisation. -/
def TokenStr (l : Str) : Prop :=
  ∀ c ∈ l, c = 43 ∨ c = 45 ∨ c = 100 ∨ (48 ≤ c ∧ c ≤ 57)

/-- The association list the specification's words describe: each
achievable total `modifier + count + i` paired with the frequency of the
raw sum `count + i` among all outcome combinations. -/
def specAssoc (d : Dice) : List (Int × Nat) :=
  (List.range (d.count * d.sides - d.count + 1)).map
    (fun (i : Nat) => ((d.modifier + (d.count : Int) + (i : Int),
      specFreq d.count d.sides ((d.count : Int) + (i : Int))) : Int × Nat))

/-- Fuel-driven decimal rendering (structural recursion so the kernel can
evaluate it); adequate whenever `n < fuel`. -/
def natDigitsF : Nat → Nat → Str
  | 0, _ => []
  | fuel + 1, n => if n < 10 then [48 + n] else natDigitsF fuel (n / 10) ++ [48 + n % 10]

/-- Decimal rendering of a natural number (the `format!` interpolation
used to build dice-spec strings in the testable properties). -/
def natDigits (n : Nat) : Str := natDigitsF (n + 1) n

instance exceptEqDec : DecidableEq (Except ParseErr Dice)
  | Except.ok a, Except.ok b =>
    match decEq a b with
    | isTrue h => isTrue (by rw [h])
    | isFalse h => isFalse (by intro he; cases he; exact h rfl)
  | Except.ok _, Except.error _ => isFalse (by intro h; cases h)
  | Except.error _, Except.ok _ => isFalse (by intro h; cases h)
  | Except.error e, Except.error f =>
    match decEq e f with
    | isTrue h => isTrue (by rw [h])
    | isFalse h => isFalse (by intro he; cases he; exact h rfl)


/-! ### wrap32 and roll lemmas -/

theorem wrap32_eq_self {z : Int} (h1 : i32Min ≤ z) (h2 : z ≤ i32Max) :
    wrap32 z = z := by
  unfold i32Min at h1
  unfold i32Max at h2
  unfold wrap32
  rw [Int.emod_eq_of_lt (by omega) (by omega)]
  omega

theorem wrap32_bounds (z : Int) : i32Min ≤ wrap32 z ∧ wrap32 z ≤ i32Max := by
  unfold wrap32 i32Min i32Max
  have h1 := Int.emod_nonneg (z + 2 ^ 31) (by norm_num : (2 : Int) ^ 32 ≠ 0)
  have h2 := Int.emod_lt_of_pos (z + 2 ^ 31) (by norm_num : (0 : Int) < 2 ^ 32)
  omega

theorem foldl_wrap_add (draws : List Nat) : ∀ t : Int, 0 ≤ t →
    t + (draws.sum : Int) ≤ i32Max →
    draws.foldl (fun (a : Int) (r : Nat) => wrap32 (a + (r : Int))) t = t + (draws.sum : Int) := by
  induction draws with
  | nil =>
    intro t _ _
    simp
  | cons r rest ih =>
    intro t ht hup
    have hcast : ((r :: rest).sum : Int) = (r : Int) + (rest.sum : Int) := by
      push_cast [List.sum_cons]
      ring
    rw [hcast] at hup
    have hsum : (0 : Int) ≤ (rest.sum : Int) := Int.natCast_nonneg _
    have hr : (0 : Int) ≤ (r : Int) := Int.natCast_nonneg r
    have hmin : i32Min ≤ t + (r : Int) := by unfold i32Min; omega
    have hmax : t + (r : Int) ≤ i32Max := by omega
    simp only [List.foldl_cons]
    rw [wrap32_eq_self hmin hmax, ih (t + (r : Int)) (by omega) (by omega), hcast]
    ring

theorem length_le_sum {l : List Nat} (h : ∀ x ∈ l, 1 ≤ x) : l.length ≤ l.sum := by
  induction l with
  | nil => simp
  | cons a t ih =>
    simp only [List.length_cons, List.sum_cons]
    have h1 := h a (by simp)
    have h2 := ih (fun x hx => h x (by simp [hx]))
    omega

theorem sum_le_length_mul {l : List Nat} {b : Nat} (h : ∀ x ∈ l, x ≤ b) :
    l.sum ≤ l.length * b := by
  induction l with
  | nil => simp
  | cons a t ih =>
    simp only [List.length_cons, List.sum_cons]
    have h1 := h a (by simp)
    have h2 := ih (fun x hx => h x (by simp [hx]))
    have : (t.length + 1) * b = t.length * b + b := by ring
    omega

theorem draws_sum_bounds {d : Dice} {draws : List Nat} (h : ValidDraws d draws) :
    d.count ≤ draws.sum ∧ draws.sum ≤ d.count * d.sides := by
  obtain ⟨hlen, hmem⟩ := h
  refine ⟨?_, ?_⟩
  · have := length_le_sum (fun x hx => (hmem x hx).1)
    omega
  · have := sum_le_length_mul (fun x hx => (hmem x hx).2)
    rw [hlen] at this
    exact this

/-- C2 (amended): for any spec representable in the source types
(`count`, `sides` are `u8` values, `modifier` an `i32`) whose upper roll
bound does not overflow `i32`, and every sequence of draws the random
source can produce, the rolled total lies in
`[count * 1 + modifier, count * sides + modifier]`. -/
theorem C2_roll_bounds (d : Dice) (draws : List Nat)
    (hc2 : d.count ≤ 255) (hs2 : d.sides ≤ 255)
    (hm1 : i32Min ≤ d.modifier)
    (hup : (d.count : Int) * (d.sides : Int) + d.modifier ≤ i32Max)
    (hd : ValidDraws d draws) :
    (d.count : Int) * 1 + d.modifier ≤ d.roll draws ∧
      d.roll draws ≤ (d.count : Int) * (d.sides : Int) + d.modifier := by
  obtain ⟨hS1, hS2⟩ := draws_sum_bounds hd
  have hS2' : (draws.sum : Int) ≤ (d.count : Int) * (d.sides : Int) := by
    have := Int.ofNat_le.mpr hS2
    rw [Int.natCast_mul] at this
    exact this
  have hS1' : (d.count : Int) ≤ (draws.sum : Int) := by exact_mod_cast hS1
  have h65 : draws.sum ≤ 65025 :=
    le_trans hS2 (Nat.mul_le_mul hc2 hs2)
  have h65' : (draws.sum : Int) ≤ 65025 := by exact_mod_cast h65
  have hfold := foldl_wrap_add draws 0 le_rfl
    (by unfold i32Max; omega)
  unfold Dice.roll
  rw [hfold]
  rw [wrap32_eq_self (by unfold i32Min at hm1 ⊢; omega) (by omega)]
  constructor <;> omega

/-- Witness for C2 at `2d6+1` with draws 3 and 5. -/
theorem C2_roll_bounds_witness :
    ((⟨6, 2, 1⟩ : Dice).count : Int) * 1 + (⟨6, 2, 1⟩ : Dice).modifier ≤
        Dice.roll ⟨6, 2, 1⟩ [3, 5] ∧
      Dice.roll ⟨6, 2, 1⟩ [3, 5] ≤
        ((⟨6, 2, 1⟩ : Dice).count : Int) * ((⟨6, 2, 1⟩ : Dice).sides : Int) +
          (⟨6, 2, 1⟩ : Dice).modifier :=
  C2_roll_bounds ⟨6, 2, 1⟩ [3, 5] (by decide) (by decide) (by decide)
    (by decide) (by decide)

/-- C2 counterexample: for the parseable spec `1d1+2147483647` (count 1,
sides 1, modifier `i32::MAX`) and the only possible draw sequence `[1]`,
the `i32` total wraps to `-2147483648`, which is below the claimed lower
bound `count * 1 + modifier = 2147483648`. -/
theorem C2_counterexample :
    ValidDraws ⟨1, 1, 2147483647⟩ [1] ∧
      Dice.roll ⟨1, 1, 2147483647⟩ [1] = -2147483648 ∧
      ¬ ((1 : Int) * 1 + 2147483647 ≤ Dice.roll ⟨1, 1, 2147483647⟩ [1]) := by
  decide

/-! ### Normalisation lemmas (trim, lowercase) -/

theorem lowerChar_fixed {n : Nat} (h : n < 65 ∨ 90 < n) : lowerChar n = n := by
  unfold lowerChar
  rw [if_neg]
  omega

theorem lowerChar_idem (n : Nat) : lowerChar (lowerChar n) = lowerChar n := by
  unfold lowerChar
  by_cases h : 65 ≤ n ∧ n ≤ 90
  · rw [if_pos h, if_neg (by omega : ¬(65 ≤ n + 32 ∧ n + 32 ≤ 90))]
  · rw [if_neg h, if_neg h]

theorem isWs_lowerChar (n : Nat) : isWs (lowerChar n) = isWs n := by
  unfold lowerChar
  by_cases h : 65 ≤ n ∧ n ≤ 90
  · rw [if_pos h]
    simp only [isWs, wsCodes, List.mem_cons, List.not_mem_nil, or_false,
      decide_eq_decide]
    omega
  · rw [if_neg h]

theorem lowerStr_idem (s : Str) : lowerStr (lowerStr s) = lowerStr s := by
  simp only [lowerStr, List.map_map]
  congr 1
  funext n
  exact lowerChar_idem n

theorem trimStr_lowerStr (s : Str) : trimStr (lowerStr s) = lowerStr (trimStr s) := by
  have hdw : ∀ l : Str, (l.map lowerChar).dropWhile isWs =
      (l.dropWhile isWs).map lowerChar := by
    intro l
    rw [List.dropWhile_map]
    have hfun : (isWs ∘ lowerChar) = isWs := by
      funext n
      simp only [Function.comp_apply]
      exact isWs_lowerChar n
    rw [hfun]
  unfold trimStr lowerStr
  rw [hdw, ← List.map_reverse, hdw, List.map_reverse]

theorem dropWhile_head_false {p : Nat → Bool} :
    ∀ {l c cs}, List.dropWhile p l = c :: cs → p c = false := by
  intro l
  induction l with
  | nil => intro c cs h; simp [List.dropWhile] at h
  | cons a t ih =>
    intro c cs h
    rw [List.dropWhile_cons] at h
    by_cases ha : p a = true
    · rw [if_pos ha] at h
      exact ih h
    · rw [if_neg ha] at h
      cases h
      simpa using ha

theorem dropWhile_idem (p : Nat → Bool) (l : Str) :
    (l.dropWhile p).dropWhile p = l.dropWhile p := by
  cases h : l.dropWhile p with
  | nil => simp
  | cons c cs =>
    rw [List.dropWhile_cons, if_neg (by rw [dropWhile_head_false h]; simp)]

theorem dropWhile_app (p : Nat → Bool) (l : Str) : ∃ t, t ++ l.dropWhile p = l := by
  induction l with
  | nil => exact ⟨[], rfl⟩
  | cons a rest ih =>
    rw [List.dropWhile_cons]
    by_cases ha : p a = true
    · rw [if_pos ha]
      obtain ⟨t, ht⟩ := ih
      exact ⟨a :: t, by rw [List.cons_append, ht]⟩
    · exact ⟨[], by rw [if_neg ha, List.nil_append]⟩

theorem rev_dropWhile_app (p : Nat → Bool) (l : Str) :
    ∃ t, (l.reverse.dropWhile p).reverse ++ t = l := by
  obtain ⟨t, ht⟩ := dropWhile_app p l.reverse
  refine ⟨t.reverse, ?_⟩
  have := congrArg List.reverse ht
  rw [List.reverse_append, List.reverse_reverse] at this
  exact this

theorem trimStr_idem (s : Str) : trimStr (trimStr s) = trimStr s := by
  unfold trimStr
  set u := s.dropWhile isWs with hu
  set a := (u.reverse.dropWhile isWs).reverse with ha
  have hfix : a.dropWhile isWs = a := by
    cases hcase : a with
    | nil => simp
    | cons c cs =>
      obtain ⟨t, ht⟩ := rev_dropWhile_app isWs u
      rw [← ha, hcase] at ht
      have hhead : u.dropWhile isWs = u := dropWhile_idem isWs s
      have hu2 : u = c :: (cs ++ t) := by
        rw [← ht]
        simp
      have hc : isWs c = false := by
        apply dropWhile_head_false (l := s)
        rw [← hu, hu2]
      rw [List.dropWhile_cons, if_neg (by rw [hc]; simp)]
  rw [hfix, ha]
  rw [List.reverse_reverse, dropWhile_idem]

theorem normStr_idem (s : Str) : normStr (normStr s) = normStr s := by
  unfold normStr
  rw [trimStr_lowerStr, lowerStr_idem, trimStr_idem]

/-- C8: `Dice::parse` is insensitive to surrounding whitespace and to
letter case: parsing any string gives the same result as parsing its
trimmed-and-lowercased form; in particular `"  2D6+1  "` and `"2d6+1"`
parse identically. -/
theorem C8_parse_normalisation :
    (∀ s : Str, Dice.parse s = Dice.parse (normStr s)) ∧
      Dice.parse (strCodes "  2D6+1  ") = Dice.parse (strCodes "2d6+1") := by
  constructor
  · intro s
    unfold Dice.parse
    rw [normStr_idem]
  · decide

/-! ### splitCh lemmas -/

theorem splitCh_cons (sep c : Nat) (cs : Str) :
    splitCh sep (c :: cs) =
      if c = sep then [] :: splitCh sep cs
      else
        match splitCh sep cs with
        | [] => [[c]]
        | r :: rs => (c :: r) :: rs := rfl

theorem splitCh_ne_nil (sep : Nat) (l : Str) : splitCh sep l ≠ [] := by
  induction l with
  | nil => simp [splitCh]
  | cons c cs ih =>
    rw [splitCh_cons]
    by_cases hc : c = sep
    · simp [hc]
    · rw [if_neg hc]
      cases h : splitCh sep cs with
      | nil => simp
      | cons r rs => simp

theorem splitCh_no_sep {sep : Nat} : ∀ {l : Str}, sep ∉ l → splitCh sep l = [l] := by
  intro l
  induction l with
  | nil => intro _; rfl
  | cons c cs ih =>
    intro h
    have hc : c ≠ sep := fun he => h (by rw [he]; exact List.mem_cons_self _ _)
    have hcs : sep ∉ cs := fun he => h (List.mem_cons_of_mem _ he)
    rw [splitCh_cons, if_neg hc, ih hcs]

theorem splitCh_append {sep : Nat} : ∀ {l1 : Str}, sep ∉ l1 → ∀ l2 : Str,
    splitCh sep (l1 ++ sep :: l2) = l1 :: splitCh sep l2 := by
  intro l1
  induction l1 with
  | nil =>
    intro _ l2
    rw [List.nil_append, splitCh_cons, if_pos rfl]
  | cons c cs ih =>
    intro h l2
    have hc : c ≠ sep := fun he => h (by rw [he]; exact List.mem_cons_self _ _)
    have hcs : sep ∉ cs := fun he => h (List.mem_cons_of_mem _ he)
    rw [List.cons_append, splitCh_cons, if_neg hc, ih hcs l2]

/-! ### Digit strings and the integer parsers -/

theorem digitsToNat_append_digit (l : Str) (c : Nat) :
    digitsToNat (l ++ [c]) = digitsToNat l * 10 + (c - 48) := by
  unfold digitsToNat
  rw [List.foldl_append]
  rfl

theorem natDigitsF_succ (fuel n : Nat) :
    natDigitsF (fuel + 1) n =
      if n < 10 then [48 + n] else natDigitsF fuel (n / 10) ++ [48 + n % 10] := rfl

theorem natDigitsF_props : ∀ fuel n, n < fuel →
    natDigitsF fuel n ≠ [] ∧ (∀ c ∈ natDigitsF fuel n, 48 ≤ c ∧ c ≤ 57) ∧
      digitsToNat (natDigitsF fuel n) = n := by
  intro fuel
  induction fuel with
  | zero => intro n h; omega
  | succ fuel ih =>
    intro n h
    rw [natDigitsF_succ]
    by_cases h10 : n < 10
    · rw [if_pos h10]
      refine ⟨by simp, ?_, ?_⟩
      · intro c hc
        simp only [List.mem_singleton] at hc
        omega
      · show digitsToNat ([] ++ [48 + n]) = n
        rw [digitsToNat_append_digit]
        simp only [digitsToNat, List.foldl_nil]
        omega
    · rw [if_neg h10]
      have hdiv : n / 10 < n := Nat.div_lt_self (by omega) (by omega)
      obtain ⟨ih1, ih2, ih3⟩ := ih (n / 10) (by omega)
      refine ⟨by simp, ?_, ?_⟩
      · intro c hc
        rcases List.mem_append.mp hc with hc | hc
        · exact ih2 c hc
        · simp only [List.mem_singleton] at hc
          omega
      · rw [digitsToNat_append_digit, ih3]
        omega

theorem natDigits_ne_nil (n : Nat) : natDigits n ≠ [] :=
  (natDigitsF_props (n + 1) n (by omega)).1

theorem natDigits_digits (n : Nat) : ∀ c ∈ natDigits n, 48 ≤ c ∧ c ≤ 57 :=
  (natDigitsF_props (n + 1) n (by omega)).2.1

theorem digitsToNat_natDigits (n : Nat) : digitsToNat (natDigits n) = n :=
  (natDigitsF_props (n + 1) n (by omega)).2.2

theorem not_mem_of_digits {l : Str} (hd : ∀ c ∈ l, 48 ≤ c ∧ c ≤ 57) {x : Nat}
    (hx : x < 48 ∨ 57 < x) : x ∉ l := by
  intro hm
  have := hd x hm
  omega

theorem isWs_false_of_token {c : Nat}
    (h : c = 43 ∨ c = 45 ∨ c = 100 ∨ (48 ≤ c ∧ c ≤ 57)) : isWs c = false := by
  simp only [isWs, wsCodes, List.mem_cons, List.not_mem_nil, or_false,
    decide_eq_false_iff_not]
  omega

theorem lowerChar_fixed_of_token {c : Nat}
    (h : c = 43 ∨ c = 45 ∨ c = 100 ∨ (48 ≤ c ∧ c ≤ 57)) : lowerChar c = c := by
  apply lowerChar_fixed
  omega

theorem dropWhile_eq_self_of_head {l : Str} (h : ∀ c ∈ l, isWs c = false) :
    l.dropWhile isWs = l := by
  cases l with
  | nil => rfl
  | cons c cs =>
    rw [List.dropWhile_cons, if_neg]
    rw [h c (List.mem_cons_self _ _)]
    simp

theorem trimStr_eq_self {l : Str} (h : ∀ c ∈ l, isWs c = false) : trimStr l = l := by
  unfold trimStr
  rw [dropWhile_eq_self_of_head h]
  rw [dropWhile_eq_self_of_head (by
    intro c hc
    exact h c (List.mem_reverse.mp hc))]
  exact List.reverse_reverse l

theorem lowerStr_eq_self {l : Str} (h : ∀ c ∈ l, lowerChar c = c) : lowerStr l = l := by
  unfold lowerStr
  rw [List.map_congr_left h]
  simp

theorem normStr_eq_self {l : Str}
    (h : ∀ c ∈ l, c = 43 ∨ c = 45 ∨ c = 100 ∨ (48 ≤ c ∧ c ≤ 57)) :
    normStr l = l := by
  unfold normStr
  rw [trimStr_eq_self (fun c hc => isWs_false_of_token (h c hc)),
    lowerStr_eq_self (fun c hc => lowerChar_fixed_of_token (h c hc))]

theorem head_ne_of_digits {l : Str} (hd : ∀ c ∈ l, 48 ≤ c ∧ c ≤ 57) {x : Nat}
    (hx : x < 48 ∨ 57 < x) : l.head? ≠ some x := by
  cases l with
  | nil => simp
  | cons c cs =>
    simp only [List.head?_cons, ne_eq, Option.some.injEq]
    intro he
    have := hd c (List.mem_cons_self _ _)
    omega

theorem parseUnsigned_digits {l : Str} (hne : l ≠ [])
    (hd : ∀ c ∈ l, 48 ≤ c ∧ c ≤ 57) :
    parseUnsigned l = some (digitsToNat l) := by
  have hall : l.all isDigitC = true := by
    rw [List.all_eq_true]
    intro c hc
    simp only [isDigitC, decide_eq_true_eq]
    exact hd c hc
  have hsp : stripPlus l = l := by
    unfold stripPlus
    rw [if_neg (head_ne_of_digits hd (by omega))]
  simp only [parseUnsigned, hsp]
  rw [if_pos ⟨hne, hall⟩]

theorem parseU8_digits {l : Str} (hne : l ≠ [])
    (hd : ∀ c ∈ l, 48 ≤ c ∧ c ≤ 57) (hle : digitsToNat l ≤ 255) :
    parseU8 l = some (digitsToNat l) := by
  unfold parseU8
  rw [parseUnsigned_digits hne hd]
  simp [hle]

theorem parseU8_plus_digits {l : Str} (hne : l ≠ [])
    (hd : ∀ c ∈ l, 48 ≤ c ∧ c ≤ 57) (hle : digitsToNat l ≤ 255) :
    parseU8 (43 :: l) = some (digitsToNat l) := by
  have hall : l.all isDigitC = true := by
    rw [List.all_eq_true]
    intro c hc
    simp only [isDigitC, decide_eq_true_eq]
    exact hd c hc
  have hsp : stripPlus (43 :: l) = l := by
    unfold stripPlus
    rw [if_pos (by simp)]
    rfl
  unfold parseU8
  simp only [parseUnsigned, hsp]
  rw [if_pos ⟨hne, hall⟩]
  simp [hle]

theorem parseI32_digits {l : Str} (hne : l ≠ [])
    (hd : ∀ c ∈ l, 48 ≤ c ∧ c ≤ 57) (hle : (digitsToNat l : Int) ≤ i32Max) :
    parseI32 l = some ((digitsToNat l : Int)) := by
  unfold parseI32
  rw [if_neg (head_ne_of_digits hd (by omega))]
  rw [parseUnsigned_digits hne hd]
  simp [hle]

theorem parseUnsigned_none_of_mem {l : Str} {x : Nat} (hx : x ∈ l)
    (hnd : ¬ (48 ≤ x ∧ x ≤ 57)) (hxp : x ≠ 43) : parseUnsigned l = none := by
  have hxt : x ∈ stripPlus l := by
    unfold stripPlus
    by_cases h : l.head? = some 43
    · rw [if_pos h]
      cases l with
      | nil => simp at hx
      | cons c cs =>
        simp only [List.head?_cons, Option.some.injEq] at h
        rcases List.mem_cons.mp hx with he | ht
        · exact absurd (he.trans h) hxp
        · exact ht
    · rw [if_neg h]
      exact hx
  have hall : (stripPlus l).all isDigitC = false := by
    rw [List.all_eq_false]
    refine ⟨x, hxt, ?_⟩
    simp only [isDigitC, decide_eq_true_eq]
    exact hnd
  simp only [parseUnsigned]
  rw [if_neg]
  intro hcond
  rw [hall] at hcond
  simp at hcond

theorem parseU8_none_of_mem {l : Str} {x : Nat} (hx : x ∈ l)
    (hnd : ¬ (48 ≤ x ∧ x ≤ 57)) (hxp : x ≠ 43) : parseU8 l = none := by
  unfold parseU8
  rw [parseUnsigned_none_of_mem hx hnd hxp]

theorem parseU8_nil : parseU8 [] = none := rfl

theorem parseI32_nil : parseI32 [] = none := rfl

theorem parseCore_eq_afterSplit {spec p0 p1 : Str}
    (h : splitCh 100 spec = [p0, p1]) :
    parseCore spec = parseAfterSplit spec p0 p1 := by
  unfold parseCore
  rw [h]

theorem parseSidesMod_plus {spec p1 ss ms : Str} {rest : List Str}
    (hmem : 43 ∈ p1) (hsplit : splitCh 43 p1 = ss :: ms :: rest)
    (hss : parseU8 ss = some (digitsToNat ss))
    (hms : parseI32 ms = some ((digitsToNat ms : Int))) :
    parseSidesMod spec p1 =
      Except.ok (digitsToNat ss, (digitsToNat ms : Int)) := by
  unfold parseSidesMod
  rw [if_pos hmem]
  simp only [hsplit, List.headI, List.get?, Option.getD, hss, hms]

theorem parseSidesMod_plus_modErr {spec p1 ss ms : Str} {rest : List Str}
    (hmem : 43 ∈ p1) (hsplit : splitCh 43 p1 = ss :: ms :: rest)
    (hss : parseU8 ss = some (digitsToNat ss))
    (hms : parseI32 ms = none) :
    parseSidesMod spec p1 = Except.error (ParseErr.invalidModifier spec ms) := by
  unfold parseSidesMod
  rw [if_pos hmem]
  simp only [hsplit, List.headI, List.get?, Option.getD, hss, hms]

theorem parseSidesMod_minus {spec p1 ss ms : Str} {rest : List Str}
    (h43 : 43 ∉ p1) (hmem : 45 ∈ p1) (hsplit : splitCh 45 p1 = ss :: ms :: rest)
    (hss : parseU8 ss = some (digitsToNat ss))
    (hms : parseI32 ms = some ((digitsToNat ms : Int))) :
    parseSidesMod spec p1 =
      Except.ok (digitsToNat ss, wrap32 (-(digitsToNat ms : Int))) := by
  unfold parseSidesMod
  rw [if_neg h43, if_pos hmem]
  simp only [hsplit, List.headI, List.get?, Option.getD, hss, hms]

theorem parseSidesMod_minus_modErr {spec p1 ss ms : Str} {rest : List Str}
    (h43 : 43 ∉ p1) (hmem : 45 ∈ p1) (hsplit : splitCh 45 p1 = ss :: ms :: rest)
    (hss : parseU8 ss = some (digitsToNat ss))
    (hms : parseI32 ms = none) :
    parseSidesMod spec p1 = Except.error (ParseErr.invalidModifier spec ms) := by
  unfold parseSidesMod
  rw [if_neg h43, if_pos hmem]
  simp only [hsplit, List.headI, List.get?, Option.getD, hss, hms]

theorem parseSidesMod_plain {spec p1 : Str}
    (h43 : 43 ∉ p1) (h45 : 45 ∉ p1)
    (hp1 : parseU8 p1 = some (digitsToNat p1)) :
    parseSidesMod spec p1 = Except.ok (digitsToNat p1, 0) := by
  unfold parseSidesMod
  rw [if_neg h43, if_neg h45]
  simp only [hp1]

theorem parseAfterSplit_ok {spec p0 p1 : Str} {count sides : Nat} {md : Int}
    (hp0 : parseU8 p0 = some count) (hc0 : count ≠ 0)
    (hps : parseSidesMod spec p1 = Except.ok (sides, md)) (hs0 : sides ≠ 0) :
    parseAfterSplit spec p0 p1 = Except.ok ⟨sides, count, md⟩ := by
  unfold parseAfterSplit
  simp only [hp0, hc0, if_false, hps, hs0, ite_false]

theorem parseAfterSplit_err {spec p0 p1 : Str} {count : Nat} {e : ParseErr}
    (hp0 : parseU8 p0 = some count) (hc0 : count ≠ 0)
    (hps : parseSidesMod spec p1 = Except.error e) :
    parseAfterSplit spec p0 p1 = Except.error e := by
  unfold parseAfterSplit
  simp only [hp0, hc0, if_false, hps, ite_false]

theorem parseAfterSplit_countErr {spec p0 p1 : Str}
    (hp0 : parseU8 p0 = none) :
    parseAfterSplit spec p0 p1 = Except.error (ParseErr.invalidCount spec p0) := by
  unfold parseAfterSplit
  simp only [hp0]

theorem tokenStr_digits {l : Str} (hd : ∀ c ∈ l, 48 ≤ c ∧ c ≤ 57) : TokenStr l :=
  fun c hc => Or.inr (Or.inr (Or.inr (hd c hc)))

theorem tokenStr_append {l1 l2 : Str} (h1 : TokenStr l1) (h2 : TokenStr l2) :
    TokenStr (l1 ++ l2) := by
  intro c hc
  rcases List.mem_append.mp hc with h | h
  · exact h1 c h
  · exact h2 c h

theorem tokenStr_cons {c0 : Nat} {l : Str}
    (h0 : c0 = 43 ∨ c0 = 45 ∨ c0 = 100 ∨ (48 ≤ c0 ∧ c0 ≤ 57))
    (h : TokenStr l) : TokenStr (c0 :: l) := by
  intro c hc
  rcases List.mem_cons.mp hc with h1 | h1
  · rw [h1]; exact h0
  · exact h c h1

theorem no_d_digits {l : Str} (hd : ∀ c ∈ l, 48 ≤ c ∧ c ≤ 57) : (100 : Nat) ∉ l :=
  not_mem_of_digits hd (by omega)

theorem no_plus_digits {l : Str} (hd : ∀ c ∈ l, 48 ≤ c ∧ c ≤ 57) : (43 : Nat) ∉ l :=
  not_mem_of_digits hd (by omega)

theorem no_minus_digits {l : Str} (hd : ∀ c ∈ l, 48 ≤ c ∧ c ≤ 57) : (45 : Nat) ∉ l :=
  not_mem_of_digits hd (by omega)

theorem parse_eq_core_of_tokens {l : Str} (h : TokenStr l) :
    Dice.parse l = parseCore l := by
  unfold Dice.parse
  rw [normStr_eq_self h]

/-- Parsing `{cs}d{ss}` for arbitrary decimal digit strings. -/
theorem parse_digits_plain {cs ss : Str}
    (hcs : cs ≠ []) (hcsd : ∀ c ∈ cs, 48 ≤ c ∧ c ≤ 57)
    (hss : ss ≠ []) (hssd : ∀ c ∈ ss, 48 ≤ c ∧ c ≤ 57)
    (hc2 : digitsToNat cs ≤ 255) (hc0 : digitsToNat cs ≠ 0)
    (hs2 : digitsToNat ss ≤ 255) (hs0 : digitsToNat ss ≠ 0) :
    Dice.parse (cs ++ 100 :: ss) =
      Except.ok ⟨digitsToNat ss, digitsToNat cs, 0⟩ := by
  rw [parse_eq_core_of_tokens
    (tokenStr_append (tokenStr_digits hcsd)
      (tokenStr_cons (by omega) (tokenStr_digits hssd)))]
  rw [parseCore_eq_afterSplit
    (by rw [splitCh_append (no_d_digits hcsd), splitCh_no_sep (no_d_digits hssd)])]
  exact parseAfterSplit_ok (parseU8_digits hcs hcsd hc2) hc0
    (parseSidesMod_plain (no_plus_digits hssd) (no_minus_digits hssd)
      (parseU8_digits hss hssd hs2)) hs0

/-- Parsing `{cs}d{ss}+{ms}` for arbitrary decimal digit strings. -/
theorem parse_digits_plus {cs ss ms : Str}
    (hcs : cs ≠ []) (hcsd : ∀ c ∈ cs, 48 ≤ c ∧ c ≤ 57)
    (hss : ss ≠ []) (hssd : ∀ c ∈ ss, 48 ≤ c ∧ c ≤ 57)
    (hms : ms ≠ []) (hmsd : ∀ c ∈ ms, 48 ≤ c ∧ c ≤ 57)
    (hc2 : digitsToNat cs ≤ 255) (hc0 : digitsToNat cs ≠ 0)
    (hs2 : digitsToNat ss ≤ 255) (hs0 : digitsToNat ss ≠ 0)
    (hm2 : (digitsToNat ms : Int) ≤ i32Max) :
    Dice.parse (cs ++ 100 :: (ss ++ 43 :: ms)) =
      Except.ok ⟨digitsToNat ss, digitsToNat cs, (digitsToNat ms : Int)⟩ := by
  have hp1 : (100 : Nat) ∉ ss ++ 43 :: ms := by
    intro hmm
    rcases List.mem_append.mp hmm with h | h
    · exact no_d_digits hssd h
    · rcases List.mem_cons.mp h with h | h
      · omega
      · exact no_d_digits hmsd h
  rw [parse_eq_core_of_tokens
    (tokenStr_append (tokenStr_digits hcsd)
      (tokenStr_cons (by omega)
        (tokenStr_append (tokenStr_digits hssd)
          (tokenStr_cons (by omega) (tokenStr_digits hmsd)))))]
  rw [parseCore_eq_afterSplit (by rw [splitCh_append (no_d_digits hcsd),
    splitCh_no_sep hp1])]
  exact parseAfterSplit_ok (parseU8_digits hcs hcsd hc2) hc0
    (parseSidesMod_plus
      (List.mem_append.mpr (Or.inr (List.mem_cons_self _ _)))
      (by rw [splitCh_append (no_plus_digits hssd),
        splitCh_no_sep (no_plus_digits hmsd)])
      (parseU8_digits hss hssd hs2)
      (parseI32_digits hms hmsd hm2)) hs0

/-- Parsing `{cs}d{ss}-{ms}` for arbitrary decimal digit strings. -/
theorem parse_digits_minus {cs ss ms : Str}
    (hcs : cs ≠ []) (hcsd : ∀ c ∈ cs, 48 ≤ c ∧ c ≤ 57)
    (hss : ss ≠ []) (hssd : ∀ c ∈ ss, 48 ≤ c ∧ c ≤ 57)
    (hms : ms ≠ []) (hmsd : ∀ c ∈ ms, 48 ≤ c ∧ c ≤ 57)
    (hc2 : digitsToNat cs ≤ 255) (hc0 : digitsToNat cs ≠ 0)
    (hs2 : digitsToNat ss ≤ 255) (hs0 : digitsToNat ss ≠ 0)
    (hm2 : (digitsToNat ms : Int) ≤ i32Max) :
    Dice.parse (cs ++ 100 :: (ss ++ 45 :: ms)) =
      Except.ok ⟨digitsToNat ss, digitsToNat cs, -(digitsToNat ms : Int)⟩ := by
  have hp1 : (100 : Nat) ∉ ss ++ 45 :: ms := by
    intro hmm
    rcases List.mem_append.mp hmm with h | h
    · exact no_d_digits hssd h
    · rcases List.mem_cons.mp h with h | h
      · omega
      · exact no_d_digits hmsd h
  have h43 : (43 : Nat) ∉ ss ++ 45 :: ms := by
    intro hmm
    rcases List.mem_append.mp hmm with h | h
    · exact no_plus_digits hssd h
    · rcases List.mem_cons.mp h with h | h
      · omega
      · exact no_plus_digits hmsd h
  have hwrap : wrap32 (-(digitsToNat ms : Int)) = -(digitsToNat ms : Int) := by
    apply wrap32_eq_self
    · unfold i32Max at hm2
      unfold i32Min
      omega
    · unfold i32Max
      have : (0 : Int) ≤ (digitsToNat ms : Int) := Int.natCast_nonneg _
      omega
  rw [parse_eq_core_of_tokens
    (tokenStr_append (tokenStr_digits hcsd)
      (tokenStr_cons (by omega)
        (tokenStr_append (tokenStr_digits hssd)
          (tokenStr_cons (by omega) (tokenStr_digits hmsd)))))]
  rw [parseCore_eq_afterSplit (by rw [splitCh_append (no_d_digits hcsd),
    splitCh_no_sep hp1])]
  rw [parseAfterSplit_ok (parseU8_digits hcs hcsd hc2) hc0
    (parseSidesMod_minus h43
      (List.mem_append.mpr (Or.inr (List.mem_cons_self _ _)))
      (by rw [splitCh_append (no_minus_digits hssd),
        splitCh_no_sep (no_minus_digits hmsd)])
      (parseU8_digits hss hssd hs2)
      (parseI32_digits hms hmsd hm2)) hs0]
  rw [hwrap]

/-- C3: for all valid `count`, `sides` (at least 1, within the `u8` width
of the source) the canonical string `{count}d{sides}` parses to
`DiceSpec{count, sides, modifier = 0}`, and for non-negative `m` within
the `i32` width, `{count}d{sides}+{m}` parses with modifier `m` and
`{count}d{sides}-{m}` parses with modifier `-m`. -/
theorem C3_parse_canonical_formats (count sides m : Nat)
    (hc1 : 1 ≤ count) (hc2 : count ≤ 255)
    (hs1 : 1 ≤ sides) (hs2 : sides ≤ 255)
    (hm : (m : Int) ≤ i32Max) :
    Dice.parse (natDigits count ++ 100 :: natDigits sides) =
        Except.ok ⟨sides, count, 0⟩ ∧
      Dice.parse (natDigits count ++ 100 :: (natDigits sides ++ 43 :: natDigits m)) =
        Except.ok ⟨sides, count, (m : Int)⟩ ∧
      Dice.parse (natDigits count ++ 100 :: (natDigits sides ++ 45 :: natDigits m)) =
        Except.ok ⟨sides, count, -(m : Int)⟩ := by
  have hcv := digitsToNat_natDigits count
  have hsv := digitsToNat_natDigits sides
  have hmv := digitsToNat_natDigits m
  refine ⟨?_, ?_, ?_⟩
  · have h := parse_digits_plain (natDigits_ne_nil count) (natDigits_digits count)
      (natDigits_ne_nil sides) (natDigits_digits sides)
      (by rw [hcv]; exact hc2) (by rw [hcv]; omega)
      (by rw [hsv]; exact hs2) (by rw [hsv]; omega)
    rw [hcv, hsv] at h
    exact h
  · have h := parse_digits_plus (natDigits_ne_nil count) (natDigits_digits count)
      (natDigits_ne_nil sides) (natDigits_digits sides)
      (natDigits_ne_nil m) (natDigits_digits m)
      (by rw [hcv]; exact hc2) (by rw [hcv]; omega)
      (by rw [hsv]; exact hs2) (by rw [hsv]; omega)
      (by rw [hmv]; exact hm)
    rw [hcv, hsv, hmv] at h
    exact h
  · have h := parse_digits_minus (natDigits_ne_nil count) (natDigits_digits count)
      (natDigits_ne_nil sides) (natDigits_digits sides)
      (natDigits_ne_nil m) (natDigits_digits m)
      (by rw [hcv]; exact hc2) (by rw [hcv]; omega)
      (by rw [hsv]; exact hs2) (by rw [hsv]; omega)
      (by rw [hmv]; exact hm)
    rw [hcv, hsv, hmv] at h
    exact h

/-- Witness for C3 at count 2, sides 6, m 3. -/
theorem C3_parse_canonical_formats_witness :
    Dice.parse (natDigits 2 ++ 100 :: natDigits 6) =
        Except.ok ⟨6, 2, 0⟩ ∧
      Dice.parse (natDigits 2 ++ 100 :: (natDigits 6 ++ 43 :: natDigits 3)) =
        Except.ok ⟨6, 2, ((3 : Nat) : Int)⟩ ∧
      Dice.parse (natDigits 2 ++ 100 :: (natDigits 6 ++ 45 :: natDigits 3)) =
        Except.ok ⟨6, 2, -((3 : Nat) : Int)⟩ :=
  C3_parse_canonical_formats 2 6 3 (by decide) (by decide) (by decide)
    (by decide) (by decide)

/-- C5 counterexample: `2d6+` does not parse with a default modifier of 0;
it fails with the modifier-field error on the empty modifier string
(splitting a segment that contains `+` always yields a second piece, so
the `unwrap_or("0")` default is unreachable). -/
theorem C5_counterexample :
    Dice.parse (strCodes "2d6+") =
      Except.error (ParseErr.invalidModifier (strCodes "2d6+") []) := by
  decide

/-- C5 (amended): for every valid `count` and `sides`, an input whose
sides-and-modifier segment ends with a bare `+` or `-` delimiter fails
with `InvalidModifier` on the empty modifier substring; it does not
default the modifier to 0. -/
theorem C5_bare_delimiter_errors {cs ss : Str}
    (hcs : cs ≠ []) (hcsd : ∀ c ∈ cs, 48 ≤ c ∧ c ≤ 57)
    (hss : ss ≠ []) (hssd : ∀ c ∈ ss, 48 ≤ c ∧ c ≤ 57)
    (hc2 : digitsToNat cs ≤ 255) (hc0 : digitsToNat cs ≠ 0)
    (hs2 : digitsToNat ss ≤ 255) :
    Dice.parse (cs ++ 100 :: (ss ++ [43])) =
        Except.error (ParseErr.invalidModifier (cs ++ 100 :: (ss ++ [43])) []) ∧
      Dice.parse (cs ++ 100 :: (ss ++ [45])) =
        Except.error (ParseErr.invalidModifier (cs ++ 100 :: (ss ++ [45])) []) := by
  constructor
  · have hp1 : (100 : Nat) ∉ ss ++ [43] := by
      intro hmm
      rcases List.mem_append.mp hmm with h | h
      · exact no_d_digits hssd h
      · simp only [List.mem_singleton] at h
        omega
    rw [parse_eq_core_of_tokens
      (tokenStr_append (tokenStr_digits hcsd)
        (tokenStr_cons (by omega)
          (tokenStr_append (tokenStr_digits hssd)
            (tokenStr_cons (by omega) (fun c hc => absurd hc (List.not_mem_nil c))))))]
    rw [parseCore_eq_afterSplit (by rw [splitCh_append (no_d_digits hcsd),
      splitCh_no_sep hp1])]
    exact parseAfterSplit_err (parseU8_digits hcs hcsd hc2) hc0
      (parseSidesMod_plus_modErr
        (List.mem_append.mpr (Or.inr (List.mem_cons_self _ _)))
        (by rw [splitCh_append (no_plus_digits hssd)]; rfl)
        (parseU8_digits hss hssd hs2) parseI32_nil)
  · have hp1 : (100 : Nat) ∉ ss ++ [45] := by
      intro hmm
      rcases List.mem_append.mp hmm with h | h
      · exact no_d_digits hssd h
      · simp only [List.mem_singleton] at h
        omega
    have h43 : (43 : Nat) ∉ ss ++ [45] := by
      intro hmm
      rcases List.mem_append.mp hmm with h | h
      · exact no_plus_digits hssd h
      · simp only [List.mem_singleton] at h
        omega
    rw [parse_eq_core_of_tokens
      (tokenStr_append (tokenStr_digits hcsd)
        (tokenStr_cons (by omega)
          (tokenStr_append (tokenStr_digits hssd)
            (tokenStr_cons (by omega) (fun c hc => absurd hc (List.not_mem_nil c))))))]
    rw [parseCore_eq_afterSplit (by rw [splitCh_append (no_d_digits hcsd),
      splitCh_no_sep hp1])]
    exact parseAfterSplit_err (parseU8_digits hcs hcsd hc2) hc0
      (parseSidesMod_minus_modErr h43
        (List.mem_append.mpr (Or.inr (List.mem_cons_self _ _)))
        (by rw [splitCh_append (no_minus_digits hssd)]; rfl)
        (parseU8_digits hss hssd hs2) parseI32_nil)

/-- Witness for C5 (amended) at `2d6+` and `2d6-`. -/
theorem C5_bare_delimiter_errors_witness :
    Dice.parse (strCodes "2" ++ 100 :: (strCodes "6" ++ [43])) =
        Except.error
          (ParseErr.invalidModifier (strCodes "2" ++ 100 :: (strCodes "6" ++ [43])) []) ∧
      Dice.parse (strCodes "2" ++ 100 :: (strCodes "6" ++ [45])) =
        Except.error
          (ParseErr.invalidModifier (strCodes "2" ++ 100 :: (strCodes "6" ++ [45])) []) :=
  C5_bare_delimiter_errors (by decide) (by decide) (by decide) (by decide)
    (by decide) (by decide) (by decide)

/-- C6 counterexample: for `2d6+3+4` the modifier string is not `3+4`
(which would fail to parse); Rust's `split` iterator yields `3` as the
second piece and the trailing `+4` is silently discarded, so the spec
parses successfully with modifier 3. -/
theorem C6_counterexample :
    Dice.parse (strCodes "2d6+3+4") = Except.ok ⟨6, 2, 3⟩ := by
  decide

/-- C6 (amended): when the sides-and-modifier segment contains several
delimiter occurrences, the first occurrence is the delimiter, the modifier
string is only the piece between the first and second occurrences, and
everything after the second occurrence is silently discarded: for any
trailing characters `rest` drawn from `+`/`-`/digits,
`{cs}d{ss}+{ms}+{rest}` parses successfully with modifier `ms`. -/
theorem C6_extra_delimiters_discarded {cs ss ms rest : Str}
    (hcs : cs ≠ []) (hcsd : ∀ c ∈ cs, 48 ≤ c ∧ c ≤ 57)
    (hss : ss ≠ []) (hssd : ∀ c ∈ ss, 48 ≤ c ∧ c ≤ 57)
    (hms : ms ≠ []) (hmsd : ∀ c ∈ ms, 48 ≤ c ∧ c ≤ 57)
    (hrest : ∀ c ∈ rest, c = 43 ∨ c = 45 ∨ (48 ≤ c ∧ c ≤ 57))
    (hc2 : digitsToNat cs ≤ 255) (hc0 : digitsToNat cs ≠ 0)
    (hs2 : digitsToNat ss ≤ 255) (hs0 : digitsToNat ss ≠ 0)
    (hm2 : (digitsToNat ms : Int) ≤ i32Max) :
    Dice.parse (cs ++ 100 :: (ss ++ 43 :: (ms ++ 43 :: rest))) =
      Except.ok ⟨digitsToNat ss, digitsToNat cs, (digitsToNat ms : Int)⟩ := by
  have h100r : (100 : Nat) ∉ rest := by
    intro hmm
    have := hrest 100 hmm
    omega
  have hp1 : (100 : Nat) ∉ ss ++ 43 :: (ms ++ 43 :: rest) := by
    intro hmm
    rcases List.mem_append.mp hmm with h | h
    · exact no_d_digits hssd h
    · rcases List.mem_cons.mp h with h | h
      · omega
      · rcases List.mem_append.mp h with h | h
        · exact no_d_digits hmsd h
        · rcases List.mem_cons.mp h with h | h
          · omega
          · exact h100r h
  rw [parse_eq_core_of_tokens
    (tokenStr_append (tokenStr_digits hcsd)
      (tokenStr_cons (by omega)
        (tokenStr_append (tokenStr_digits hssd)
          (tokenStr_cons (by omega)
            (tokenStr_append (tokenStr_digits hmsd)
              (tokenStr_cons (by omega)
                (fun c hc => by
                  rcases hrest c hc with h | h | h
                  · exact Or.inl h
                  · exact Or.inr (Or.inl h)
                  · exact Or.inr (Or.inr (Or.inr h)))))))))]
  rw [parseCore_eq_afterSplit (by rw [splitCh_append (no_d_digits hcsd),
    splitCh_no_sep hp1])]
  exact parseAfterSplit_ok (parseU8_digits hcs hcsd hc2) hc0
    (parseSidesMod_plus
      (List.mem_append.mpr (Or.inr (List.mem_cons_self _ _)))
      (by rw [splitCh_append (no_plus_digits hssd),
        splitCh_append (no_plus_digits hmsd)])
      (parseU8_digits hss hssd hs2)
      (parseI32_digits hms hmsd hm2)) hs0

/-- Witness for C6 (amended) rebuilding `2d6+3+4`. -/
theorem C6_extra_delimiters_discarded_witness :
    Dice.parse (strCodes "2" ++ 100 :: (strCodes "6" ++ 43 :: (strCodes "3" ++ 43 :: strCodes "4"))) =
      Except.ok ⟨digitsToNat (strCodes "6"), digitsToNat (strCodes "2"),
        (digitsToNat (strCodes "3") : Int)⟩ :=
  C6_extra_delimiters_discarded (by decide) (by decide) (by decide) (by decide)
    (by decide) (by decide) (by decide) (by decide) (by decide) (by decide)
    (by decide) (by decide)

/-- C7 counterexample: `+2d6` parses successfully (count 2, sides 6,
modifier 0), because Rust's unsigned integer parser accepts a single
leading `+` sign, so a `+` in the count segment does not necessarily make
parsing fail. -/
theorem C7_counterexample :
    Dice.parse (strCodes "+2d6") = Except.ok ⟨6, 2, 0⟩ := by
  decide

/-- C7 (amended): `+`/`-` in the count segment receive no special-casing
beyond what unsigned integer parsing itself does: a leading `+` followed
by a valid number is accepted (`+{count}d{sides}` parses successfully),
while a `-` anywhere in the count segment always makes the unsigned count
parse fail with `InvalidCount`. -/
theorem C7_count_segment_signs {cs ss p0 p1 : Str}
    (hcs : cs ≠ []) (hcsd : ∀ c ∈ cs, 48 ≤ c ∧ c ≤ 57)
    (hss : ss ≠ []) (hssd : ∀ c ∈ ss, 48 ≤ c ∧ c ≤ 57)
    (hc2 : digitsToNat cs ≤ 255) (hc0 : digitsToNat cs ≠ 0)
    (hs2 : digitsToNat ss ≤ 255) (hs0 : digitsToNat ss ≠ 0)
    (h45 : 45 ∈ p0) (h100p0 : 100 ∉ p0) (h100p1 : 100 ∉ p1) :
    Dice.parse (43 :: (cs ++ 100 :: ss)) =
        Except.ok ⟨digitsToNat ss, digitsToNat cs, 0⟩ ∧
      parseCore (p0 ++ 100 :: p1) =
        Except.error (ParseErr.invalidCount (p0 ++ 100 :: p1) p0) := by
  constructor
  · rw [parse_eq_core_of_tokens
      (tokenStr_cons (by omega)
        (tokenStr_append (tokenStr_digits hcsd)
          (tokenStr_cons (by omega) (tokenStr_digits hssd))))]
    have hsplit : splitCh 100 (43 :: (cs ++ 100 :: ss)) = [43 :: cs, ss] := by
      have : (43 : Nat) :: (cs ++ 100 :: ss) = (43 :: cs) ++ 100 :: ss := rfl
      rw [this, splitCh_append (by
        intro hmm
        rcases List.mem_cons.mp hmm with h | h
        · omega
        · exact no_d_digits hcsd h), splitCh_no_sep (no_d_digits hssd)]
    rw [parseCore_eq_afterSplit hsplit]
    exact parseAfterSplit_ok (parseU8_plus_digits hcs hcsd hc2) hc0
      (parseSidesMod_plain (no_plus_digits hssd) (no_minus_digits hssd)
        (parseU8_digits hss hssd hs2)) hs0
  · rw [parseCore_eq_afterSplit
      (by rw [splitCh_append h100p0, splitCh_no_sep h100p1])]
    exact parseAfterSplit_countErr
      (parseU8_none_of_mem h45 (by omega) (by omega))

/-- Witness for C7 (amended) at `+2d6` and `-2d6`. -/
theorem C7_count_segment_signs_witness :
    Dice.parse (43 :: (strCodes "2" ++ 100 :: strCodes "6")) =
        Except.ok ⟨digitsToNat (strCodes "6"), digitsToNat (strCodes "2"), 0⟩ ∧
      parseCore (strCodes "-2" ++ 100 :: strCodes "6") =
        Except.error
          (ParseErr.invalidCount (strCodes "-2" ++ 100 :: strCodes "6") (strCodes "-2")) :=
  C7_count_segment_signs (by decide) (by decide) (by decide) (by decide)
    (by decide) (by decide) (by decide) (by decide) (by decide) (by decide)
    (by decide)

theorem parseSidesMod_plain_err {spec p1 : Str}
    (h43 : 43 ∉ p1) (h45 : 45 ∉ p1) (hp1 : parseU8 p1 = none) :
    parseSidesMod spec p1 = Except.error (ParseErr.invalidSides spec p1) := by
  unfold parseSidesMod
  rw [if_neg h43, if_neg h45]
  simp only [hp1]

theorem parseSidesMod_ne_malformed (spec p1 t : Str) :
    parseSidesMod spec p1 ≠ Except.error (ParseErr.malformedSpec t) := by
  unfold parseSidesMod
  dsimp only
  split
  · split
    · simp
    · split
      · simp
      · simp
  · split
    · split
      · simp
      · split
        · simp
        · simp
    · split
      · simp
      · simp

theorem parseAfterSplit_ne_malformed (spec p0 p1 t : Str) :
    parseAfterSplit spec p0 p1 ≠ Except.error (ParseErr.malformedSpec t) := by
  unfold parseAfterSplit
  split
  · simp
  · split
    · simp
    · split
      · rename_i e heq
        intro hcon
        injection hcon with he
        rw [he] at heq
        exact parseSidesMod_ne_malformed spec p1 t heq
      · split
        · simp
        · simp

/-- C4 counterexample: `d6` (empty count segment) and `2d` (empty
sides-and-modifier segment) do not fail with the overall-format
`MalformedSpec` error; `split('d')` still yields exactly two (possibly
empty) segments, so they fail with the field-specific count and sides
errors respectively. -/
theorem C4_counterexample :
    Dice.parse (strCodes "d6") =
        Except.error (ParseErr.invalidCount (strCodes "d6") []) ∧
      Dice.parse (strCodes "2d") =
        Except.error (ParseErr.invalidSides (strCodes "2d") []) := by
  decide

/-- C4 (amended): the `MalformedSpec` overall-format error occurs exactly
when splitting on `d` does not yield exactly two segments — segments may
be empty, so this covers only a missing `d` or multiple `d`s.  An empty
count segment (e.g. `d6`) fails with the count-field error and an empty
sides-and-modifier segment (e.g. `2d`) fails with the sides-field error
instead. -/
theorem C4_malformed_iff_split :
    (∀ spec : Str,
      parseCore spec = Except.error (ParseErr.malformedSpec spec) ↔
        (splitCh 100 spec).length ≠ 2) ∧
      (∀ ss : Str, (∀ c ∈ ss, 48 ≤ c ∧ c ≤ 57) →
        Dice.parse (100 :: ss) =
          Except.error (ParseErr.invalidCount (100 :: ss) [])) ∧
      (∀ cs : Str, cs ≠ [] → (∀ c ∈ cs, 48 ≤ c ∧ c ≤ 57) →
        digitsToNat cs ≤ 255 → digitsToNat cs ≠ 0 →
        Dice.parse (cs ++ [100]) =
          Except.error (ParseErr.invalidSides (cs ++ [100]) [])) := by
  refine ⟨?_, ?_, ?_⟩
  · intro spec
    constructor
    · intro h hlen
      rcases hs : splitCh 100 spec with _ | ⟨a, _ | ⟨b, _ | ⟨c, t⟩⟩⟩
      · exact splitCh_ne_nil 100 spec hs
      · rw [hs] at hlen
        simp at hlen
      · rw [parseCore_eq_afterSplit hs] at h
        exact parseAfterSplit_ne_malformed spec a b spec h
      · rw [hs] at hlen
        simp at hlen
    · intro hlen
      unfold parseCore
      rcases hs : splitCh 100 spec with _ | ⟨a, _ | ⟨b, _ | ⟨c, t⟩⟩⟩
      · rfl
      · rfl
      · rw [hs] at hlen
        simp at hlen
      · rfl
  · intro ss hd
    rw [parse_eq_core_of_tokens (tokenStr_cons (by omega) (tokenStr_digits hd))]
    rw [parseCore_eq_afterSplit (by
      have h1 : (100 : Nat) :: ss = [] ++ 100 :: ss := rfl
      rw [h1, splitCh_append (by simp), splitCh_no_sep (no_d_digits hd)])]
    exact parseAfterSplit_countErr parseU8_nil
  · intro cs hne hd h255 h0
    rw [parse_eq_core_of_tokens
      (tokenStr_append (tokenStr_digits hd) (tokenStr_cons (by omega) (by
        intro c hc
        exact absurd hc (List.not_mem_nil c))))]
    rw [parseCore_eq_afterSplit (by
      have h1 : cs ++ [100] = cs ++ (100 : Nat) :: [] := rfl
      rw [h1, splitCh_append (no_d_digits hd)]
      rfl)]
    exact parseAfterSplit_err (parseU8_digits hne hd h255) h0
      (parseSidesMod_plain_err (by simp) (by simp) parseU8_nil)

/-- Witness for C4 (amended) at `2x6`, `d6` and `2d`. -/
theorem C4_malformed_iff_split_witness :
    (parseCore (strCodes "2x6") =
        Except.error (ParseErr.malformedSpec (strCodes "2x6")) ↔
      (splitCh 100 (strCodes "2x6")).length ≠ 2) ∧
      Dice.parse (100 :: strCodes "6") =
        Except.error (ParseErr.invalidCount (100 :: strCodes "6") []) ∧
      Dice.parse (strCodes "2" ++ [100]) =
        Except.error (ParseErr.invalidSides (strCodes "2" ++ [100]) []) :=
  ⟨C4_malformed_iff_split.1 (strCodes "2x6"),
    C4_malformed_iff_split.2.1 (strCodes "6") (by decide),
    C4_malformed_iff_split.2.2 (strCodes "2") (by decide) (by decide)
      (by decide) (by decide)⟩

theorem parseI32_range {l : Str} {z : Int} (h : parseI32 l = some z) :
    i32Min ≤ z ∧ z ≤ i32Max := by
  unfold parseI32 at h
  split at h
  · split at h
    · rename_i n heq
      split at h
      · rename_i hle
        injection h with hz
        rw [← hz]
        have hn : (0 : Int) ≤ (n : Int) := Int.natCast_nonneg n
        unfold i32Min i32Max
        omega
      · exact absurd h (by simp)
    · exact absurd h (by simp)
  · split at h
    · rename_i n heq
      split at h
      · rename_i hle
        injection h with hz
        rw [← hz]
        have hn : (0 : Int) ≤ (n : Int) := Int.natCast_nonneg n
        unfold i32Max at hle ⊢
        unfold i32Min
        omega
      · exact absurd h (by simp)
    · exact absurd h (by simp)

theorem parseSidesMod_ok_mod {spec p1 : Str} {sides : Nat} {md : Int}
    (h : parseSidesMod spec p1 = Except.ok (sides, md)) :
    i32Min ≤ md ∧ md ≤ i32Max := by
  unfold parseSidesMod at h
  dsimp only at h
  split at h
  · split at h
    · exact absurd h (by simp)
    · split at h
      · exact absurd h (by simp)
      · rename_i m heq
        injection h with hpair
        have hmd := congrArg Prod.snd hpair
        simp only at hmd
        rw [← hmd]
        exact parseI32_range heq
  · split at h
    · split at h
      · exact absurd h (by simp)
      · split at h
        · exact absurd h (by simp)
        · rename_i m heq
          injection h with hpair
          have hmd := congrArg Prod.snd hpair
          simp only at hmd
          rw [← hmd]
          exact wrap32_bounds (-m)
    · split at h
      · exact absurd h (by simp)
      · injection h with hpair
        have hmd := congrArg Prod.snd hpair
        simp only at hmd
        rw [← hmd]
        unfold i32Min i32Max
        omega

/-- C10 counterexample: `2d6+-2147483648` parses successfully and its
modifier is exactly `-2^31 = i32::MIN`, so the claimed reachable range
`[-(2^31 - 1), 2^31 - 1]` is wrong: `-2^31` is reachable (through the `+`
branch with a `-` sign inside the modifier string). -/
theorem C10_counterexample :
    Dice.parse (strCodes "2d6+-2147483648") =
      Except.ok ⟨6, 2, -2147483648⟩ := by
  decide

/-- C10 (amended): every successfully parsed spec has its modifier in the
full `i32` range `[-2^31, 2^31 - 1]`; the negation in the `-` branch is
applied to a necessarily non-negative parsed magnitude (the modifier
string there can contain no `-`), so it never overflows, but `-2^31`
itself is reachable via the `+` branch. -/
theorem C10_modifier_range (s : Str) (d : Dice)
    (h : Dice.parse s = Except.ok d) :
    i32Min ≤ d.modifier ∧ d.modifier ≤ i32Max := by
  unfold Dice.parse parseCore at h
  split at h
  · rename_i p0 p1
    unfold parseAfterSplit at h
    split at h
    · exact absurd h (by simp)
    · split at h
      · exact absurd h (by simp)
      · split at h
        · exact absurd h (by simp)
        · rename_i count hcnt sm sides md heq
          split at h
          · exact absurd h (by simp)
          · injection h with hd
            rw [← hd]
            exact parseSidesMod_ok_mod heq
  · exact absurd h (by simp)

/-- Witness for C10 (amended) at `2d6+-2147483648`. -/
theorem C10_modifier_range_witness :
    i32Min ≤ (Dice.mk 6 2 (-2147483648)).modifier ∧
      (Dice.mk 6 2 (-2147483648)).modifier ≤ i32Max :=
  C10_modifier_range (strCodes "2d6+-2147483648") ⟨6, 2, -2147483648⟩
    (by decide)

/-! ### The BTreeMap model -/

theorem lookupF_not_mem : ∀ {m : List (Int × Nat)} {q : Int},
    q ∉ keysOf m → lookupF m q = 0 := by
  intro m
  induction m with
  | nil => intro q _; rfl
  | cons p rest ih =>
    intro q hq
    obtain ⟨j, v⟩ := p
    have hqj : q ≠ j := by
      intro he
      exact hq (by rw [he]; exact List.mem_cons_self _ _)
    show (if q = j then v else lookupF rest q) = 0
    rw [if_neg hqj]
    exact ih (fun hm => hq (List.mem_cons_of_mem _ hm))

theorem lookupF_pos_mem : ∀ {m : List (Int × Nat)} {q : Int},
    (∀ p ∈ m, 1 ≤ p.2) → (q ∈ keysOf m ↔ 1 ≤ lookupF m q) := by
  intro m
  induction m with
  | nil =>
    intro q _
    simp [keysOf, lookupF]
  | cons p rest ih =>
    intro q hv
    obtain ⟨j, v⟩ := p
    show q ∈ j :: keysOf rest ↔ 1 ≤ (if q = j then v else lookupF rest q)
    by_cases hqj : q = j
    · rw [if_pos hqj]
      simp only [hqj, List.mem_cons, true_or, true_iff]
      exact hv (j, v) (List.mem_cons_self _ _)
    · rw [if_neg hqj]
      rw [List.mem_cons]
      have := ih (q := q) (fun p hp => hv p (List.mem_cons_of_mem _ hp))
      constructor
      · intro h
        rcases h with h | h
        · exact absurd h hqj
        · exact this.mp h
      · intro h
        exact Or.inr (this.mpr h)

theorem keys_btInsert (k : Int) : ∀ (m : List (Int × Nat)) (q : Int),
    q ∈ keysOf (btInsert k m) ↔ q = k ∨ q ∈ keysOf m := by
  intro m
  induction m with
  | nil =>
    intro q
    simp [btInsert, keysOf]
  | cons p rest ih =>
    intro q
    obtain ⟨j, v⟩ := p
    show q ∈ keysOf (if k < j then (k, 1) :: (j, v) :: rest
      else if k = j then (j, v + 1) :: rest else (j, v) :: btInsert k rest) ↔ _
    by_cases h1 : k < j
    · rw [if_pos h1]
      simp [keysOf]
    · rw [if_neg h1]
      by_cases h2 : k = j
      · rw [if_pos h2]
        simp [keysOf, h2]
      · rw [if_neg h2]
        show q ∈ j :: keysOf (btInsert k rest) ↔ _
        rw [List.mem_cons, ih q]
        simp [keysOf]
        tauto

theorem sorted_btInsert (k : Int) : ∀ {m : List (Int × Nat)},
    (keysOf m).Pairwise (· < ·) → (keysOf (btInsert k m)).Pairwise (· < ·) := by
  intro m
  induction m with
  | nil =>
    intro _
    simp [btInsert, keysOf]
  | cons p rest ih =>
    intro hs
    obtain ⟨j, v⟩ := p
    have hs' : (keysOf ((j, v) :: rest)) = j :: keysOf rest := rfl
    rw [hs'] at hs
    rw [List.pairwise_cons] at hs
    obtain ⟨hj, hrest⟩ := hs
    show (keysOf (if k < j then (k, 1) :: (j, v) :: rest
      else if k = j then (j, v + 1) :: rest else (j, v) :: btInsert k rest)).Pairwise _
    by_cases h1 : k < j
    · rw [if_pos h1]
      show (k :: j :: keysOf rest).Pairwise (· < ·)
      rw [List.pairwise_cons]
      constructor
      · intro x hx
        rcases List.mem_cons.mp hx with h | h
        · rw [h]; exact h1
        · exact lt_trans h1 (hj x h)
      · rw [List.pairwise_cons]
        exact ⟨hj, hrest⟩
    · rw [if_neg h1]
      by_cases h2 : k = j
      · rw [if_pos h2]
        show (j :: keysOf rest).Pairwise (· < ·)
        rw [List.pairwise_cons]
        exact ⟨hj, hrest⟩
      · rw [if_neg h2]
        show (j :: keysOf (btInsert k rest)).Pairwise (· < ·)
        rw [List.pairwise_cons]
        constructor
        · intro x hx
          rcases (keys_btInsert k rest x).mp hx with h | h
          · rw [h]; omega
          · exact hj x h
        · exact ih hrest

theorem posvals_btInsert (k : Int) : ∀ {m : List (Int × Nat)},
    (∀ p ∈ m, 1 ≤ p.2) → ∀ p ∈ btInsert k m, 1 ≤ p.2 := by
  intro m
  induction m with
  | nil =>
    intro _ p hp
    simp [btInsert] at hp
    rw [hp]
  | cons q rest ih =>
    intro hv p hp
    obtain ⟨j, v⟩ := q
    have hv1 : 1 ≤ v := hv (j, v) (List.mem_cons_self _ _)
    have hvr : ∀ p ∈ rest, 1 ≤ p.2 := fun p hp => hv p (List.mem_cons_of_mem _ hp)
    rw [show btInsert k ((j, v) :: rest) = (if k < j then (k, 1) :: (j, v) :: rest
      else if k = j then (j, v + 1) :: rest else (j, v) :: btInsert k rest) from rfl] at hp
    by_cases h1 : k < j
    · rw [if_pos h1] at hp
      rcases List.mem_cons.mp hp with h | h
      · rw [h]
      · rcases List.mem_cons.mp h with h | h
        · rw [h]; exact hv1
        · exact hvr p h
    · rw [if_neg h1] at hp
      by_cases h2 : k = j
      · rw [if_pos h2] at hp
        rcases List.mem_cons.mp hp with h | h
        · rw [h]; omega
        · exact hvr p h
      · rw [if_neg h2] at hp
        rcases List.mem_cons.mp hp with h | h
        · rw [h]; exact hv1
        · exact ih hvr p h

theorem freqSum_btInsert (k : Int) : ∀ (m : List (Int × Nat)),
    freqSum (btInsert k m) = freqSum m + 1 := by
  intro m
  induction m with
  | nil => rfl
  | cons q rest ih =>
    obtain ⟨j, v⟩ := q
    rw [show btInsert k ((j, v) :: rest) = (if k < j then (k, 1) :: (j, v) :: rest
      else if k = j then (j, v + 1) :: rest else (j, v) :: btInsert k rest) from rfl]
    by_cases h1 : k < j
    · rw [if_pos h1]
      show 1 + (v + freqSum rest) = (v + freqSum rest) + 1
      omega
    · rw [if_neg h1]
      by_cases h2 : k = j
      · rw [if_pos h2]
        show (v + 1) + freqSum rest = (v + freqSum rest) + 1
        omega
      · rw [if_neg h2]
        show v + freqSum (btInsert k rest) = (v + freqSum rest) + 1
        rw [ih]
        omega

theorem lookupF_btInsert (k : Int) : ∀ {m : List (Int × Nat)} (q : Int),
    (keysOf m).Pairwise (· < ·) →
    lookupF (btInsert k m) q = lookupF m q + (if q = k then 1 else 0) := by
  intro m
  induction m with
  | nil =>
    intro q _
    show (if q = k then 1 else lookupF [] q) = lookupF [] q + _
    by_cases h : q = k
    · rw [if_pos h, if_pos h]; rfl
    · rw [if_neg h, if_neg h]; rfl
  | cons p rest ih =>
    intro q hs
    obtain ⟨j, v⟩ := p
    have hs' : (keysOf ((j, v) :: rest)) = j :: keysOf rest := rfl
    rw [hs'] at hs
    rw [List.pairwise_cons] at hs
    obtain ⟨hj, hrest⟩ := hs
    rw [show btInsert k ((j, v) :: rest) = (if k < j then (k, 1) :: (j, v) :: rest
      else if k = j then (j, v + 1) :: rest else (j, v) :: btInsert k rest) from rfl]
    by_cases h1 : k < j
    · rw [if_pos h1]
      show (if q = k then 1 else lookupF ((j, v) :: rest) q) = _
      by_cases hq : q = k
      · rw [if_pos hq, if_pos hq]
        have hnm : q ∉ keysOf ((j, v) :: rest) := by
          intro hm
          rcases List.mem_cons.mp hm with h | h
          · omega
          · have := hj q h
            omega
        rw [lookupF_not_mem hnm]
      · rw [if_neg hq, if_neg hq]
        omega
    · rw [if_neg h1]
      by_cases h2 : k = j
      · rw [if_pos h2]
        show (if q = j then v + 1 else lookupF rest q) =
          (if q = j then v else lookupF rest q) + _
        by_cases hq : q = j
        · rw [if_pos hq, if_pos hq, if_pos (by omega : q = k)]
        · rw [if_neg hq, if_neg hq, if_neg (by omega : ¬ q = k)]
          rfl
      · rw [if_neg h2]
        show (if q = j then v else lookupF (btInsert k rest) q) =
          (if q = j then v else lookupF rest q) + _
        by_cases hq : q = j
        · rw [if_pos hq, if_pos hq, if_neg (by omega : ¬ q = k)]
          rfl
        · rw [if_neg hq, if_neg hq]
          exact ih q hrest

/-! ### generate_combinations -/

theorem gc_zero (sides : Nat) (s : Int) (m : List (Int × Nat)) :
    generate_combinations 0 sides s m = btInsert s m := rfl

theorem gc_succ (c sides : Nat) (s : Int) (m : List (Int × Nat)) :
    generate_combinations (c + 1) sides s m =
      (List.range sides).foldl
        (fun (acc : List (Int × Nat)) (i : Nat) =>
          generate_combinations c sides (wrap32 (s + (i : Int) + 1)) acc) m := rfl

theorem nWays_zero (sides : Nat) (s q : Int) :
    nWays 0 sides s q = if s = q then 1 else 0 := rfl

theorem nWays_succ (c sides : Nat) (s q : Int) :
    nWays (c + 1) sides s q =
      ((List.range sides).map
        (fun (i : Nat) => nWays c sides (wrap32 (s + (i : Int) + 1)) q)).sum := rfl

theorem foldl_preserve {α β : Type} (P : β → Prop) (f : β → α → β)
    (hf : ∀ b a, P b → P (f b a)) :
    ∀ (l : List α) (b : β), P b → P (l.foldl f b) := by
  intro l
  induction l with
  | nil => intro b hb; exact hb
  | cons a t ih =>
    intro b hb
    exact ih (f b a) (hf b a hb)

theorem good_btInsert (k : Int) {m : List (Int × Nat)} (h : GoodMap m) :
    GoodMap (btInsert k m) :=
  ⟨sorted_btInsert k h.1, posvals_btInsert k h.2⟩

theorem good_gc (sides : Nat) : ∀ (c : Nat) (s : Int) (m : List (Int × Nat)),
    GoodMap m → GoodMap (generate_combinations c sides s m) := by
  intro c
  induction c with
  | zero =>
    intro s m hm
    rw [gc_zero]
    exact good_btInsert s hm
  | succ c ih =>
    intro s m hm
    rw [gc_succ]
    exact foldl_preserve GoodMap
      (fun (acc : List (Int × Nat)) (i : Nat) =>
        generate_combinations c sides (wrap32 (s + (i : Int) + 1)) acc)
      (fun b a hb => ih (wrap32 (s + (a : Int) + 1)) b hb) (List.range sides) m hm

theorem freqSum_gc (sides : Nat) : ∀ (c : Nat) (s : Int) (m : List (Int × Nat)),
    freqSum (generate_combinations c sides s m) = freqSum m + sides ^ c := by
  intro c
  induction c with
  | zero =>
    intro s m
    rw [gc_zero, freqSum_btInsert]
    rfl
  | succ c ih =>
    intro s m
    rw [gc_succ]
    have key : ∀ (l : List Nat) (m0 : List (Int × Nat)),
        freqSum (l.foldl
          (fun (acc : List (Int × Nat)) (i : Nat) =>
            generate_combinations c sides (wrap32 (s + (i : Int) + 1)) acc) m0) =
          freqSum m0 + l.length * sides ^ c := by
      intro l
      induction l with
      | nil => intro m0; simp
      | cons a t iht =>
        intro m0
        rw [List.foldl_cons, iht, ih]
        rw [List.length_cons]
        ring
    rw [key]
    rw [List.length_range]
    rw [pow_succ]
    ring

theorem lookup_gc (sides : Nat) : ∀ (c : Nat) (s q : Int) (m : List (Int × Nat)),
    GoodMap m →
    lookupF (generate_combinations c sides s m) q = lookupF m q + nWays c sides s q := by
  intro c
  induction c with
  | zero =>
    intro s q m hm
    rw [gc_zero, nWays_zero, lookupF_btInsert s q hm.1]
    by_cases h : s = q
    · rw [if_pos h, if_pos (by omega : q = s)]
    · rw [if_neg h, if_neg (by omega : ¬ q = s)]
  | succ c ih =>
    intro s q m hm
    rw [gc_succ, nWays_succ]
    have key : ∀ (l : List Nat) (m0 : List (Int × Nat)), GoodMap m0 →
        lookupF (l.foldl
          (fun (acc : List (Int × Nat)) (i : Nat) =>
            generate_combinations c sides (wrap32 (s + (i : Int) + 1)) acc) m0) q =
          lookupF m0 q +
            (l.map (fun (i : Nat) => nWays c sides (wrap32 (s + (i : Int) + 1)) q)).sum := by
      intro l
      induction l with
      | nil => intro m0 _; simp
      | cons a t iht =>
        intro m0 hm0
        rw [List.foldl_cons, iht _ (good_gc sides c _ m0 hm0), ih _ q m0 hm0]
        rw [List.map_cons, List.sum_cons]
        ring
    rw [key (List.range sides) m hm]

/-! ### allCombos and specFreq -/

theorem allCombos_zero (sides : Nat) : allCombos 0 sides = [[]] := rfl

theorem allCombos_succ (c sides : Nat) :
    allCombos (c + 1) sides =
      (List.range sides).flatMap
        (fun i => (allCombos c sides).map (fun t => (i + 1) :: t)) := rfl

theorem mem_allCombos (sides : Nat) : ∀ (c : Nat) (t : List Nat),
    t ∈ allCombos c sides ↔ t.length = c ∧ ∀ r ∈ t, 1 ≤ r ∧ r ≤ sides := by
  intro c
  induction c with
  | zero =>
    intro t
    rw [allCombos_zero]
    simp only [List.mem_singleton]
    constructor
    · intro h
      rw [h]
      exact ⟨rfl, by simp⟩
    · intro ⟨h, _⟩
      exact List.eq_nil_of_length_eq_zero h
  | succ c ih =>
    intro t
    rw [allCombos_succ, List.mem_flatMap]
    constructor
    · intro ⟨i, hi, ht⟩
      rw [List.mem_range] at hi
      obtain ⟨t0, ht0, rfl⟩ := List.mem_map.mp ht
      obtain ⟨hlen, hmem⟩ := (ih t0).mp ht0
      refine ⟨by simp [hlen], ?_⟩
      intro r hr
      rcases List.mem_cons.mp hr with h | h
      · omega
      · exact hmem r h
    · intro ⟨hlen, hmem⟩
      cases t with
      | nil => simp at hlen
      | cons r t0 =>
        have hr := hmem r (List.mem_cons_self _ _)
        refine ⟨r - 1, List.mem_range.mpr (by omega), ?_⟩
        rw [List.mem_map]
        refine ⟨t0, (ih t0).mpr ⟨by simpa using hlen,
          fun x hx => hmem x (List.mem_cons_of_mem _ hx)⟩, ?_⟩
        have : r - 1 + 1 = r := by omega
        rw [this]

theorem allCombos_sum_bounds {c sides : Nat} {t : List Nat}
    (h : t ∈ allCombos c sides) : c ≤ t.sum ∧ t.sum ≤ c * sides := by
  obtain ⟨hlen, hmem⟩ := (mem_allCombos sides c t).mp h
  constructor
  · rw [← hlen]
    exact length_le_sum (fun x hx => (hmem x hx).1)
  · rw [← hlen]
    exact sum_le_length_mul (fun x hx => (hmem x hx).2)

theorem exists_combo (sides : Nat) (hs : 1 ≤ sides) :
    ∀ (c raw : Nat), c ≤ raw → raw ≤ c * sides →
    ∃ t ∈ allCombos c sides, t.sum = raw := by
  intro c
  induction c with
  | zero =>
    intro raw h1 h2
    rw [Nat.zero_mul] at h2
    refine ⟨[], by rw [allCombos_zero]; simp, by
      rw [List.sum_nil]
      omega⟩
  | succ c ih =>
    intro raw h1 h2
    by_cases hcase : c * sides + 1 ≤ raw
    · obtain ⟨t0, ht0, hsum⟩ := ih (c * sides) (Nat.le_mul_of_pos_right c hs) le_rfl
      have hr1 : 1 ≤ raw - c * sides := by omega
      have hr2 : raw - c * sides ≤ sides := by
        have : (c + 1) * sides = c * sides + sides := by ring
        omega
      refine ⟨(raw - c * sides) :: t0, ?_, ?_⟩
      · rw [mem_allCombos]
        obtain ⟨hlen, hmem⟩ := (mem_allCombos sides c t0).mp ht0
        refine ⟨by simp [hlen], ?_⟩
        intro r hr
        rcases List.mem_cons.mp hr with h | h
        · omega
        · exact hmem r h
      · rw [List.sum_cons, hsum]
        omega
    · obtain ⟨t0, ht0, hsum⟩ := ih (raw - 1) (by omega) (by omega)
      refine ⟨1 :: t0, ?_, ?_⟩
      · rw [mem_allCombos]
        obtain ⟨hlen, hmem⟩ := (mem_allCombos sides c t0).mp ht0
        refine ⟨by simp [hlen], ?_⟩
        intro r hr
        rcases List.mem_cons.mp hr with h | h
        · omega
        · exact hmem r h
      · rw [List.sum_cons, hsum]
        omega

theorem specFreq_pos {c sides : Nat} {raw : Nat} (hs : 1 ≤ sides)
    (h1 : c ≤ raw) (h2 : raw ≤ c * sides) :
    0 < specFreq c sides ((raw : Int)) := by
  obtain ⟨t, ht, hsum⟩ := exists_combo sides hs c raw h1 h2
  unfold specFreq
  rw [List.countP_pos_iff]
  refine ⟨t, ht, ?_⟩
  simp only [decide_eq_true_eq]
  exact_mod_cast congrArg (Nat.cast : Nat → Int) hsum

theorem specFreq_out {c sides : Nat} {r : Int}
    (h : r < (c : Int) ∨ ((c * sides : Nat) : Int) < r) :
    specFreq c sides r = 0 := by
  unfold specFreq
  rw [List.countP_eq_zero]
  intro t ht
  simp only [decide_eq_true_eq]
  intro hsum
  obtain ⟨hb1, hb2⟩ := allCombos_sum_bounds ht
  have hb1' : (c : Int) ≤ (t.sum : Int) := by exact_mod_cast hb1
  have hb2' : ((t.sum : Nat) : Int) ≤ ((c * sides : Nat) : Int) := by exact_mod_cast hb2
  omega

theorem specFreq_zero_eq (sides : Nat) (r : Int) :
    specFreq 0 sides r = if (0 : Int) = r then 1 else 0 := by
  unfold specFreq
  rw [allCombos_zero, List.countP_cons, List.countP_nil]
  simp

theorem countP_flatMap {α β : Type} (f : α → List β) (p : β → Bool) :
    ∀ l : List α, (l.flatMap f).countP p = (l.map (fun a => (f a).countP p)).sum := by
  intro l
  induction l with
  | nil => rfl
  | cons a t ih =>
    rw [List.flatMap_cons, List.countP_append, ih, List.map_cons, List.sum_cons]

theorem specFreq_succ (c sides : Nat) (r : Int) :
    specFreq (c + 1) sides r =
      ((List.range sides).map
        (fun (i : Nat) => specFreq c sides (r - ((i : Int) + 1)))).sum := by
  unfold specFreq
  rw [allCombos_succ, countP_flatMap]
  congr 1
  apply List.map_congr_left
  intro i _
  rw [List.countP_map]
  apply List.countP_congr
  intro t _
  simp only [Function.comp_apply, decide_eq_true_eq, List.sum_cons]
  constructor
  · intro h
    push_cast at h ⊢
    omega
  · intro h
    push_cast at h ⊢
    omega

theorem nWays_no_wrap (sides : Nat) : ∀ (c : Nat) (s q : Int),
    i32Min ≤ s → s + ((c * sides : Nat) : Int) ≤ i32Max →
    nWays c sides s q = specFreq c sides (q - s) := by
  intro c
  induction c with
  | zero =>
    intro s q h1 h2
    rw [nWays_zero, specFreq_zero_eq]
    by_cases h : s = q
    · rw [if_pos h, if_pos (by omega)]
    · rw [if_neg h, if_neg (by omega)]
  | succ c ih =>
    intro s q h1 h2
    rw [nWays_succ, specFreq_succ]
    congr 1
    apply List.map_congr_left
    intro i hi
    rw [List.mem_range] at hi
    have hcast : (((c + 1) * sides : Nat) : Int) =
        ((c * sides : Nat) : Int) + (sides : Int) := by
      push_cast
      ring
    have hi' : (i : Int) + 1 ≤ (sides : Int) := by exact_mod_cast hi
    have hi0 : (0 : Int) ≤ (i : Int) := Int.natCast_nonneg i
    have hcs : (0 : Int) ≤ ((c * sides : Nat) : Int) := Int.natCast_nonneg _
    have hb1 : i32Min ≤ s + (i : Int) + 1 := by omega
    have hb2 : s + (i : Int) + 1 ≤ i32Max := by
      rw [hcast] at h2
      omega
    rw [wrap32_eq_self hb1 hb2]
    rw [ih (s + (i : Int) + 1) q hb1 (by rw [hcast] at h2; omega)]
    congr 1
    ring

theorem lookupF_cons_self (k : Int) (v : Nat) (t : List (Int × Nat)) :
    lookupF ((k, v) :: t) k = v := by
  show (if k = k then v else lookupF t k) = v
  rw [if_pos rfl]

theorem lookupF_cons_ne {q k : Int} (v : Nat) (t : List (Int × Nat)) (h : q ≠ k) :
    lookupF ((k, v) :: t) q = lookupF t q := by
  show (if q = k then v else lookupF t q) = lookupF t q
  rw [if_neg h]

theorem assoc_ext : ∀ (m1 m2 : List (Int × Nat)), GoodMap m1 → GoodMap m2 →
    (∀ q, lookupF m1 q = lookupF m2 q) → m1 = m2 := by
  intro m1
  induction m1 with
  | nil =>
    intro m2 _ h2 hl
    cases m2 with
    | nil => rfl
    | cons p t =>
      obtain ⟨k, v⟩ := p
      have hv : 1 ≤ v := h2.2 (k, v) (List.mem_cons_self _ _)
      have hlk := hl k
      rw [lookupF_cons_self] at hlk
      have h0 : lookupF [] k = 0 := rfl
      rw [h0] at hlk
      omega
  | cons p1 t1 ih =>
    intro m2 h1 h2 hl
    obtain ⟨k1, v1⟩ := p1
    have hv1 : 1 ≤ v1 := h1.2 (k1, v1) (List.mem_cons_self _ _)
    have hpw1 := List.pairwise_cons.mp h1.1
    cases m2 with
    | nil =>
      exfalso
      have hlk := hl k1
      rw [lookupF_cons_self] at hlk
      have h0 : lookupF [] k1 = 0 := rfl
      rw [h0] at hlk
      omega
    | cons p2 t2 =>
      obtain ⟨k2, v2⟩ := p2
      have hv2 : 1 ≤ v2 := h2.2 (k2, v2) (List.mem_cons_self _ _)
      have hpw2 := List.pairwise_cons.mp h2.1
      have hmem1 : k1 ∈ keysOf ((k2, v2) :: t2) := by
        rw [lookupF_pos_mem h2.2]
        rw [← hl k1, lookupF_cons_self]
        exact hv1
      have hmem2 : k2 ∈ keysOf ((k1, v1) :: t1) := by
        rw [lookupF_pos_mem h1.2]
        rw [hl k2, lookupF_cons_self]
        exact hv2
      have hkeq : k1 = k2 := by
        rcases List.mem_cons.mp hmem1 with h | h
        · exact h
        · rcases List.mem_cons.mp hmem2 with h' | h'
          · omega
          · have ha := hpw2.1 k1 h
            have hb := hpw1.1 k2 h'
            omega
      have hveq : v1 = v2 := by
        have := hl k1
        rw [lookupF_cons_self, hkeq, lookupF_cons_self] at this
        exact this
      have htail : ∀ q, lookupF t1 q = lookupF t2 q := by
        intro q
        by_cases hq : q = k1
        · rw [hq]
        
          have hn1 : k1 ∉ keysOf t1 := by
            intro hm
            have := hpw1.1 k1 hm
            omega
          have hn2 : k1 ∉ keysOf t2 := by
            intro hm
            have := hpw2.1 k1 (hkeq ▸ hm)
            omega
          rw [lookupF_not_mem hn1, lookupF_not_mem hn2]
        · have := hl q
          rw [lookupF_cons_ne v1 t1 hq, lookupF_cons_ne v2 t2 (hkeq ▸ hq)] at this
          exact this
      have heq := ih t2 ⟨hpw1.2, fun p hp => h1.2 p (List.mem_cons_of_mem _ hp)⟩
        ⟨hpw2.2, fun p hp => h2.2 p (List.mem_cons_of_mem _ hp)⟩ htail
      rw [hkeq, hveq, heq]

theorem lookupF_range_map_hit : ∀ (n : Nat) (base : Int) (f : Nat → Nat) (j : Nat),
    j < n →
    lookupF ((List.range n).map
      (fun (i : Nat) => ((base + (i : Int), f i) : Int × Nat))) (base + (j : Int)) = f j := by
  intro n
  induction n with
  | zero => intro base f j hj; omega
  | succ n ih =>
    intro base f j hj
    rw [List.range_succ_eq_map, List.map_cons, List.map_map]
    have hfun : ((fun (i : Nat) => ((base + (i : Int), f i) : Int × Nat)) ∘ (· + 1)) =
        (fun (i : Nat) => (((base + 1) + (i : Int), (fun k => f (k + 1)) i) : Int × Nat)) := by
      funext i
      simp only [Function.comp_apply]
      have h1 : base + ((i + 1 : Nat) : Int) = (base + 1) + (i : Int) := by
        push_cast
        ring
      rw [h1]
    rw [hfun]
    cases j with
    | zero =>
      rw [Nat.cast_zero, add_zero]
      exact lookupF_cons_self base (f 0) _
    | succ j =>
      have hne : base + ((j + 1 : Nat) : Int) ≠ base + ((0 : Nat) : Int) := by
        push_cast
        omega
      rw [lookupF_cons_ne _ _ hne]
      have harg : base + ((j + 1 : Nat) : Int) = (base + 1) + (j : Int) := by
        push_cast
        ring
      rw [harg]
      exact ih (base + 1) (fun k => f (k + 1)) j (by omega)

theorem lookupF_range_map_miss (n : Nat) (base : Int) (f : Nat → Nat) (q : Int)
    (hq : ∀ i : Nat, i < n → q ≠ base + (i : Int)) :
    lookupF ((List.range n).map
      (fun (i : Nat) => ((base + (i : Int), f i) : Int × Nat))) q = 0 := by
  apply lookupF_not_mem
  intro hm
  unfold keysOf at hm
  rw [List.map_map] at hm
  obtain ⟨i, hi, heq⟩ := List.mem_map.mp hm
  rw [List.mem_range] at hi
  exact hq i hi (by rw [← heq]; rfl)

theorem specAssoc_eq_map (d : Dice) :
    specAssoc d = (List.range (d.count * d.sides - d.count + 1)).map
      (fun (i : Nat) => (((d.modifier + (d.count : Int)) + (i : Int),
        (fun k => specFreq d.count d.sides ((d.count : Int) + (k : Int))) i) : Int × Nat)) := rfl

theorem good_nil : GoodMap [] := by
  constructor
  · exact List.Pairwise.nil
  · intro p hp
    cases hp

theorem good_specAssoc (d : Dice) (hs : 1 ≤ d.sides) : GoodMap (specAssoc d) := by
  constructor
  · show (keysOf (specAssoc d)).Pairwise (· < ·)
    unfold keysOf
    rw [specAssoc_eq_map, List.map_map]
    apply List.Pairwise.map
      (fun (i : Nat) => (d.modifier + (d.count : Int)) + (i : Int))
      (fun a b (hab : a < b) => ?_) (List.pairwise_lt_range _)
    show (d.modifier + (d.count : Int)) + (a : Int) <
      (d.modifier + (d.count : Int)) + (b : Int)
    have : (a : Int) < (b : Int) := by exact_mod_cast hab
    omega
  · intro p hp
    rw [specAssoc_eq_map] at hp
    obtain ⟨i, hi, rfl⟩ := List.mem_map.mp hp
    rw [List.mem_range] at hi
    show 1 ≤ specFreq d.count d.sides ((d.count : Int) + (i : Int))
    have hcast : (d.count : Int) + (i : Int) = ((d.count + i : Nat) : Int) := by
      push_cast
      ring
    rw [hcast]
    have hle : d.count ≤ d.count * d.sides := Nat.le_mul_of_pos_right d.count hs
    exact specFreq_pos hs (by omega) (by omega)

theorem distMap_eq_specAssoc (d : Dice) (hs1 : 1 ≤ d.sides)
    (hm1 : i32Min ≤ d.modifier)
    (hup : d.modifier + ((d.count * d.sides : Nat) : Int) ≤ i32Max) :
    generate_combinations d.count d.sides d.modifier [] = specAssoc d := by
  apply assoc_ext _ _ (good_gc d.sides d.count d.modifier [] good_nil)
    (good_specAssoc d hs1)
  intro q
  rw [lookup_gc d.sides d.count d.modifier q [] good_nil]
  rw [show lookupF [] q = 0 from rfl, Nat.zero_add]
  rw [nWays_no_wrap d.sides d.count d.modifier q hm1 hup]
  have hle : d.count ≤ d.count * d.sides := Nat.le_mul_of_pos_right d.count hs1
  by_cases hq : ∃ i : Nat, i < d.count * d.sides - d.count + 1 ∧
      q = (d.modifier + (d.count : Int)) + (i : Int)
  · obtain ⟨i, hi, rfl⟩ := hq
    rw [specAssoc_eq_map, lookupF_range_map_hit _ _ _ i hi]
    congr 1
    ring
  · push_neg at hq
    rw [specAssoc_eq_map, lookupF_range_map_miss _ _ _ q hq]
    apply specFreq_out
    have hn : ((d.count * d.sides - d.count + 1 : Nat) : Int) =
        ((d.count * d.sides : Nat) : Int) - (d.count : Int) + 1 := by
      push_cast [Nat.cast_sub hle]
      ring
    by_cases h1 : q < d.modifier + (d.count : Int)
    · left
      omega
    · right
      push_neg at h1
      have htn : (0 : Int) ≤ q - (d.modifier + (d.count : Int)) := by omega
      set i : Nat := (q - (d.modifier + (d.count : Int))).toNat with hidef
      have hq' : q = (d.modifier + (d.count : Int)) + (i : Int) := by
        rw [hidef]
        rw [Int.toNat_of_nonneg htn]
        ring
      have hni : ¬ i < d.count * d.sides - d.count + 1 := by
        intro hcon
        exact hq i hcon hq'
      have hni' : ((d.count * d.sides - d.count + 1 : Nat) : Int) ≤ (i : Int) := by
        exact_mod_cast Nat.le_of_not_lt hni
      rw [hn] at hni'
      omega

/-- The central refinement: under the no-overflow side conditions the
computed distribution coincides with the specification's description, and
the total number of enumerated outcomes is exactly `sides ^ count`. -/
theorem roll_distribution_spec (d : Dice)
    (hc1 : 1 ≤ d.count) (hs1 : 1 ≤ d.sides)
    (hm1 : i32Min ≤ d.modifier)
    (hup : d.modifier + ((d.count * d.sides : Nat) : Int) ≤ i32Max) :
    Dice.roll_distribution d = specDistribution d ∧
      freqSum (generate_combinations d.count d.sides d.modifier []) =
        d.sides ^ d.count := by
  have hsum : freqSum (generate_combinations d.count d.sides d.modifier []) =
      d.sides ^ d.count := by
    rw [freqSum_gc]
    simp [freqSum]
  have hmap := distMap_eq_specAssoc d hs1 hm1 hup
  refine ⟨?_, hsum⟩
  have hsum' : (((specAssoc d).map Prod.snd).sum : Nat) = d.sides ^ d.count := by
    rw [← hmap]
    exact hsum
  show ((generate_combinations d.count d.sides d.modifier []).map Prod.fst,
      (generate_combinations d.count d.sides d.modifier []).map
        (fun p => ((p.2 : ℚ) /
          (((generate_combinations d.count d.sides d.modifier []).map Prod.snd).sum : ℚ)) * 100)) =
    specDistribution d
  rw [hmap, hsum']
  unfold specDistribution
  rw [Prod.mk.injEq]
  constructor
  · show ((List.range (d.count * d.sides - d.count + 1)).map
      (fun (i : Nat) => (((d.modifier + (d.count : Int)) + (i : Int),
        specFreq d.count d.sides ((d.count : Int) + (i : Int))) : Int × Nat))).map Prod.fst =
      specTotals d
    rw [List.map_map]
    unfold specTotals
    apply List.map_congr_left
    intro i _
    show (d.modifier + (d.count : Int)) + (i : Int) = d.modifier + (d.count : Int) + (i : Int)
    ring
  · show ((List.range (d.count * d.sides - d.count + 1)).map
      (fun (i : Nat) => (((d.modifier + (d.count : Int)) + (i : Int),
        specFreq d.count d.sides ((d.count : Int) + (i : Int))) : Int × Nat))).map
        (fun p => ((p.2 : ℚ) / ((d.sides ^ d.count : Nat) : ℚ)) * 100) =
      (specTotals d).map
        (fun q => ((specFreq d.count d.sides (q - d.modifier) : ℚ) /
          ((d.sides : ℚ) ^ d.count)) * 100)
    unfold specTotals
    rw [List.map_map, List.map_map]
    apply List.map_congr_left
    intro i _
    show ((specFreq d.count d.sides ((d.count : Int) + (i : Int)) : ℚ) /
        ((d.sides ^ d.count : Nat) : ℚ)) * 100 =
      ((specFreq d.count d.sides
          ((d.modifier + (d.count : Int) + (i : Int)) - d.modifier) : ℚ) /
        ((d.sides : ℚ) ^ d.count)) * 100
    rw [Nat.cast_pow]
    congr 3
    ring

/-- C1 (amended): for every valid spec whose top total
`count * sides + modifier` stays within `i32`, `roll_distribution`
enumerates exactly `sides ^ count` outcome combinations (the accumulated
frequencies sum to `sides ^ count`) and equals the specification's
distribution: the modifier added once to every combination's raw sum,
each percentage equal to `(frequency / sides^count) * 100`, results listed
in strictly ascending total order. -/
theorem C1_distribution_refines (d : Dice)
    (hc1 : 1 ≤ d.count) (hs1 : 1 ≤ d.sides)
    (hm1 : i32Min ≤ d.modifier)
    (hup : d.modifier + ((d.count * d.sides : Nat) : Int) ≤ i32Max) :
    Dice.roll_distribution d = specDistribution d ∧
      freqSum (generate_combinations d.count d.sides d.modifier []) =
        d.sides ^ d.count :=
  roll_distribution_spec d hc1 hs1 hm1 hup

/-- Witness for C1 (amended) at `2d2`. -/
theorem C1_distribution_refines_witness :
    Dice.roll_distribution ⟨2, 2, 0⟩ = specDistribution ⟨2, 2, 0⟩ ∧
      freqSum (generate_combinations (Dice.mk 2 2 0).count (Dice.mk 2 2 0).sides
        (Dice.mk 2 2 0).modifier []) = (Dice.mk 2 2 0).sides ^ (Dice.mk 2 2 0).count :=
  C1_distribution_refines ⟨2, 2, 0⟩ (by decide) (by decide) (by decide) (by decide)

/-- C1 counterexample: for the parseable spec `1d2+2147483647` the claim
fails as stated: the `i32` sums wrap, so the computed totals are
`[-2147483648, -2147483647]` while the spec-side distribution (modifier
added once to each raw sum, as mathematical integers) has totals
`[2147483648, 2147483649]`. -/
theorem C1_counterexample :
    (Dice.roll_distribution ⟨2, 1, 2147483647⟩).1 = [-2147483648, -2147483647] ∧
      (specDistribution ⟨2, 1, 2147483647⟩).1 = [2147483648, 2147483649] ∧
      Dice.roll_distribution ⟨2, 1, 2147483647⟩ ≠ specDistribution ⟨2, 1, 2147483647⟩ := by
  refine ⟨by decide, by decide, ?_⟩
  intro h
  exact absurd (congrArg Prod.fst h)
    (by decide :
      (Dice.roll_distribution ⟨2, 1, 2147483647⟩).1 ≠
        (specDistribution ⟨2, 1, 2147483647⟩).1)

/-- C9 (amended): under the same no-overflow side condition, the totals
reported by `roll_distribution` are exactly the consecutive integers from
`count * 1 + modifier` up to `count * sides + modifier` with no gaps, and
every reported percentage is strictly positive. -/
theorem C9_totals_consecutive_pos (d : Dice)
    (hc1 : 1 ≤ d.count) (hs1 : 1 ≤ d.sides)
    (hm1 : i32Min ≤ d.modifier)
    (hup : d.modifier + ((d.count * d.sides : Nat) : Int) ≤ i32Max) :
    (Dice.roll_distribution d).1 =
      (List.range (d.count * d.sides - d.count + 1)).map
        (fun (i : Nat) => d.modifier + (d.count : Int) + (i : Int)) ∧
      ∀ p ∈ (Dice.roll_distribution d).2, 0 < p := by
  obtain ⟨heq, _⟩ := roll_distribution_spec d hc1 hs1 hm1 hup
  rw [heq]
  constructor
  · rfl
  · intro p hp
    have hp' : p ∈ (specTotals d).map
        (fun q => ((specFreq d.count d.sides (q - d.modifier) : ℚ) /
          ((d.sides : ℚ) ^ d.count)) * 100) := hp
    obtain ⟨q, hq, rfl⟩ := List.mem_map.mp hp'
    unfold specTotals at hq
    obtain ⟨i, hi, rfl⟩ := List.mem_map.mp hq
    rw [List.mem_range] at hi
    have hle : d.count ≤ d.count * d.sides := Nat.le_mul_of_pos_right d.count hs1
    have harg : d.modifier + (d.count : Int) + (i : Int) - d.modifier =
        ((d.count + i : Nat) : Int) := by
      push_cast
      ring
    rw [harg]
    have hfreq : 0 < specFreq d.count d.sides ((d.count + i : Nat) : Int) :=
      specFreq_pos hs1 (by omega) (by omega)
    have h1 : (0 : ℚ) < (specFreq d.count d.sides ((d.count + i : Nat) : Int) : ℚ) := by
      exact_mod_cast hfreq
    have h2 : (0 : ℚ) < (d.sides : ℚ) ^ d.count := by
      apply pow_pos
      exact_mod_cast hs1
    have h3 : (0 : ℚ) < 100 := by norm_num
    exact mul_pos (div_pos h1 h2) h3

/-- Witness for C9 (amended) at `2d2`. -/
theorem C9_totals_consecutive_pos_witness :
    (Dice.roll_distribution ⟨2, 2, 0⟩).1 =
      (List.range ((Dice.mk 2 2 0).count * (Dice.mk 2 2 0).sides -
        (Dice.mk 2 2 0).count + 1)).map
        (fun (i : Nat) => (Dice.mk 2 2 0).modifier +
          ((Dice.mk 2 2 0).count : Int) + (i : Int)) ∧
      ∀ p ∈ (Dice.roll_distribution ⟨2, 2, 0⟩).2, 0 < p :=
  C9_totals_consecutive_pos ⟨2, 2, 0⟩ (by decide) (by decide) (by decide) (by decide)

/-- C9 counterexample: for the parseable spec `1d1+2147483647` the listed
total is `-2147483648` (the `i32` sum wraps), not the claimed consecutive
range starting at `count * 1 + modifier = 2147483648`. -/
theorem C9_counterexample :
    (Dice.roll_distribution ⟨1, 1, 2147483647⟩).1 = [-2147483648] ∧
      (-2147483648 : Int) ≠ (1 : Int) * 1 + 2147483647 := by
  decide
